import Mathlib

/-
  Verification development for the qflow variational Monte Carlo solver
  (namespace VMC, file vmcsolver.cpp).  Positions are modelled as real-valued
  arrays indexed by particle and coordinate; the distance matrix is a
  real-valued square array.  C++ doubles are modelled by real numbers.
-/

open scoped Classical

namespace VMC

/-- Trap shape enumeration from the solver configuration. -/
inductive HOType
  | SYMMETRIC
  | ELLIPTICAL
deriving DecidableEq

/-- Interaction toggle from the solver configuration. -/
inductive InteractionType
  | ON
  | OFF
deriving DecidableEq

/-- Analytic-acceleration toggle from the solver configuration. -/
inductive AnalyticAcceleration
  | ON
  | OFF
deriving DecidableEq

/-- The run configuration of the solver (VMCConfiguration).  `dims` is the
dimensionality, `h` the finite-difference step and `h2` its cached squared
inverse, set by the caller. -/
structure VMCConfiguration where
  dims : ℕ
  n_particles : ℕ
  ho_type : HOType
  interaction : InteractionType
  acceleration : AnalyticAcceleration
  omega_ho : ℝ
  omega_z : ℝ
  a : ℝ
  h : ℝ
  h2 : ℝ
  step_length : ℝ

/-- A position array: particle index, then coordinate index.  `R i d` is the
d-th coordinate of particle i (column i of the arma matrix). -/
abbrev Pos : Type := ℕ → ℕ → ℝ

/-- Euclidean distance between the position columns of particles i and j,
`arma::norm(R.col(i) - R.col(j))`. -/
noncomputable def pdist (dims : ℕ) (R : Pos) (i j : ℕ) : ℝ :=
  Real.sqrt (∑ d ∈ Finset.range dims, (R i d - R j d) ^ 2)

/-- `VMCSolver::initialize_distance_matrix`: fills every entry (i, j) with
i < j < n from the positions; all other entries keep their previous value. -/
noncomputable def initDist (np dims : ℕ) (R D : Pos) : Pos := fun i j =>
  if i < j ∧ j < np then pdist dims R i j else D i j

/-- `VMCSolver::update_distance_matrix`: recomputes row `p` (entries (p, j)
with p < j < n) and column `p` (entries (i, p) with i < p); everything else
keeps its previous value. -/
noncomputable def updateDist (np dims p : ℕ) (R D : Pos) : Pos := fun i j =>
  if i = p ∧ p < j ∧ j < np then pdist dims R i j
  else if j = p ∧ i < p then pdist dims R i j
  else D i j

/-- The distance cache agrees with the positions on every populated entry. -/
def cacheConsistent (np dims : ℕ) (R D : Pos) : Prop :=
  ∀ i j, i < j → j < np → D i j = pdist dims R i j

/-- The diagonal and the strict lower triangle of the cache are zero. -/
def lowerZero (D : Pos) : Prop :=
  ∀ i j, j ≤ i → D i j = 0

theorem pdist_congr (dims : ℕ) {R Rx : Pos} (i j : ℕ)
    (hi : ∀ d, d < dims → Rx i d = R i d)
    (hj : ∀ d, d < dims → Rx j d = R j d) :
    pdist dims Rx i j = pdist dims R i j := by
  unfold pdist
  congr 1
  refine Finset.sum_congr rfl fun d hd => ?_
  rw [Finset.mem_range] at hd
  rw [hi d hd, hj d hd]

theorem pdist_self (dims : ℕ) (R : Pos) (i : ℕ) : pdist dims R i i = 0 := by
  simp [pdist]

theorem pdist_comm (dims : ℕ) (R : Pos) (i j : ℕ) :
    pdist dims R i j = pdist dims R j i := by
  unfold pdist
  congr 1
  refine Finset.sum_congr rfl fun d _ => ?_
  ring

theorem update_consistent (np dims p : ℕ) {R Rx D : Pos}
    (hcons : cacheConsistent np dims R D)
    (hmove : ∀ i d, i ≠ p → d < dims → Rx i d = R i d) :
    cacheConsistent np dims Rx (updateDist np dims p Rx D) := by
  intro i j hij hj
  unfold updateDist
  by_cases h1 : i = p ∧ p < j ∧ j < np
  · rw [if_pos h1]
  · rw [if_neg h1]
    by_cases h2 : j = p ∧ i < p
    · rw [if_pos h2]
    · rw [if_neg h2]
      have hip : i ≠ p := by
        rintro rfl
        exact h1 ⟨rfl, hij, hj⟩
      have hjp : j ≠ p := by
        rintro rfl
        exact h2 ⟨rfl, hij⟩
      rw [hcons i j hij hj]
      exact (pdist_congr dims i j (fun d hd => hmove i d hip hd)
        (fun d hd => hmove j d hjp hd)).symm

/-- C1: if the cache is consistent with the positions before particle p moves,
then updating for particle p on the moved configuration makes every populated
entry (i < j < n) identical to a from-scratch full initial fill on the moved
configuration. -/
theorem update_after_move_matches_full_init
    (np dims p : ℕ) (R Rx D D0 : Pos)
    (hcons : cacheConsistent np dims R D)
    (hmove : ∀ i d, i ≠ p → d < dims → Rx i d = R i d) :
    ∀ i j, i < j → j < np →
      updateDist np dims p Rx D i j = initDist np dims Rx D0 i j := by
  intro i j hij hj
  have hu := update_consistent np dims p hcons hmove i j hij hj
  unfold initDist
  rw [if_pos ⟨hij, hj⟩, hu]

/-- Witness for C1 at a concrete two-particle one-dimensional instance. -/
theorem update_after_move_matches_full_init_witness :
    cacheConsistent 2 1 (fun _ _ => 0) (fun _ _ => 0) ∧
    (∀ i j, i < j → j < 2 →
      updateDist 2 1 0 (fun _ _ => 0) (fun _ _ => 0) i j =
        initDist 2 1 (fun _ _ => 0) (fun _ _ => 0) i j) := by
  have hc : cacheConsistent 2 1 (fun _ _ => (0 : ℝ)) (fun _ _ => 0) := by
    intro i j hij hj
    simp [pdist]
  exact ⟨hc, update_after_move_matches_full_init 2 1 0
    (fun _ _ => 0) (fun _ _ => 0) (fun _ _ => 0) (fun _ _ => 0) hc
    (fun i d _ _ => rfl)⟩

/-- Reachable cache states: the cache produced by the initial full fill of a
zeroed matrix, and every cache obtained from a reachable one by moving a
single particle p and running the row/column update for p.  This covers the
accepted and rejected moves of the Metropolis loop and the perturb/restore
updates of the numeric kinetic-energy path. -/
inductive Reach (np dims : ℕ) : Pos → Pos → Prop
  | init (R : Pos) : Reach np dims R (initDist np dims R (fun _ _ => 0))
  | step (R Rx D : Pos) (p : ℕ) (hp : p < np)
      (hmove : ∀ i d, i ≠ p → d < dims → Rx i d = R i d)
      (prev : Reach np dims R D) :
      Reach np dims Rx (updateDist np dims p Rx D)

theorem reach_invariant {np dims : ℕ} {R D : Pos} (hR : Reach np dims R D) :
    cacheConsistent np dims R D ∧ lowerZero D := by
  induction hR with
  | init R =>
    constructor
    · intro i j hij hj
      unfold initDist
      rw [if_pos ⟨hij, hj⟩]
    · intro i j hji
      unfold initDist
      rw [if_neg]
      rintro ⟨h1, _⟩
      omega
  | step R Rx D p hp hmove prev ih =>
    refine ⟨update_consistent np dims p ih.1 hmove, ?_⟩
    intro i j hji
    unfold updateDist
    rw [if_neg, if_neg]
    · exact ih.2 i j hji
    · rintro ⟨rfl, h2⟩
      omega
    · rintro ⟨rfl, h2, _⟩
      omega

/-- C4: in every reachable cache state, the (min, max)-normalized query is
symmetric in its two indices and returns the recomputed Euclidean distance of
the currently accepted configuration. -/
theorem dist_cache_query_symm_correct
    (np dims : ℕ) (R D : Pos) (hR : Reach np dims R D)
    (i j : ℕ) (hi : i < np) (hj : j < np) :
    D (min i j) (max i j) = D (min j i) (max j i) ∧
    D (min i j) (max i j) = pdist dims R i j := by
  obtain ⟨hcons, hzero⟩ := reach_invariant hR
  refine ⟨by rw [min_comm, max_comm], ?_⟩
  rcases lt_trichotomy i j with hlt | heq | hgt
  · rw [min_eq_left hlt.le, max_eq_right hlt.le]
    exact hcons i j hlt hj
  · subst heq
    rw [min_self, max_self, hzero i i le_rfl, pdist_self]
  · rw [min_eq_right hgt.le, max_eq_left hgt.le, hcons j i hgt hi,
      pdist_comm]

/-- Witness for C4 on a concrete reachable one-particle state. -/
theorem dist_cache_query_symm_correct_witness :
    initDist 1 1 (fun _ _ => 0) (fun _ _ => 0) (min 0 0) (max 0 0) =
      initDist 1 1 (fun _ _ => 0) (fun _ _ => 0) (min 0 0) (max 0 0) ∧
    initDist 1 1 (fun _ _ => 0) (fun _ _ => 0) (min 0 0) (max 0 0) =
      pdist 1 (fun _ _ => 0) 0 0 :=
  dist_cache_query_symm_correct 1 1 (fun _ _ => 0)
    (initDist 1 1 (fun _ _ => 0) (fun _ _ => 0))
    (Reach.init (fun _ _ => 0)) 0 0 (by decide) (by decide)

/-- C10: every write to the distance matrix targets a strictly upper entry,
so in every reachable state the diagonal and strict lower triangle are zero;
the unnormalized read (j, i) of a populated pair i < j returns 0 while the
normalized (min, max) read returns the true pairwise distance. -/
theorem dist_cache_upper_triangle_only
    (np dims : ℕ) (R D : Pos) (hR : Reach np dims R D) :
    (∀ i j, j ≤ i → D i j = 0) ∧
    (∀ i j, i < j → j < np →
      D j i = 0 ∧ D (min i j) (max i j) = pdist dims R i j) := by
  obtain ⟨hcons, hzero⟩ := reach_invariant hR
  refine ⟨hzero, fun i j hij hj => ⟨hzero j i hij.le, ?_⟩⟩
  rw [min_eq_left hij.le, max_eq_right hij.le]
  exact hcons i j hij hj

/-- Witness for C10 on a concrete reachable two-particle state. -/
theorem dist_cache_upper_triangle_only_witness :
    (∀ i j, j ≤ i → initDist 2 1 (fun _ _ => 0) (fun _ _ => 0) i j = 0) ∧
    (∀ i j, i < j → j < 2 →
      initDist 2 1 (fun _ _ => 0) (fun _ _ => 0) j i = 0 ∧
      initDist 2 1 (fun _ _ => 0) (fun _ _ => 0) (min i j) (max i j) =
        pdist 1 (fun _ _ => 0) i j) :=
  dist_cache_upper_triangle_only 2 1 (fun _ _ => 0)
    (initDist 2 1 (fun _ _ => 0) (fun _ _ => 0))
    (Reach.init (fun _ _ => 0))

/-- The ordered list of particle pairs (i, j) with i < j < np, in the order
the nested loops of the solver visit them. -/
def pairList (np : ℕ) : List (ℕ × ℕ) :=
  (List.range np).flatMap fun i =>
    ((List.range np).filter fun j => i < j).map fun j => (i, j)

theorem mem_pairList {np : ℕ} {p : ℕ × ℕ} :
    p ∈ pairList np ↔ p.1 < p.2 ∧ p.2 < np := by
  obtain ⟨i, j⟩ := p
  simp only [pairList, List.mem_flatMap, List.mem_map, List.mem_filter,
    List.mem_range, decide_eq_true_eq, Prod.mk.injEq]
  constructor
  · rintro ⟨x, hx, y, ⟨hy, hxy⟩, rfl, rfl⟩
    exact ⟨hxy, hy⟩
  · rintro ⟨hij, hj⟩
    exact ⟨i, lt_trans hij hj, j, ⟨hj, hij⟩, rfl, rfl⟩

/-- The saturating sentinel `std::numeric_limits<double>::max()`, the largest
finite IEEE double, (2^53 - 1) * 2^971. -/
noncomputable def dblMax : ℝ := (2 ^ 53 - 1) * 2 ^ 971

/-- The pair scan of `VMCSolver::V_int`: walk the pairs in loop order and
return the sentinel at the first pair at or below the hard-sphere radius. -/
noncomputable def vIntAux (a : ℝ) (D : Pos) : List (ℕ × ℕ) → ℝ
  | [] => 0
  | (i, j) :: rest => if D i j ≤ a then dblMax else vIntAux a D rest

/-- `VMCSolver::V_int`. -/
noncomputable def V_int (c : VMCConfiguration) (D : Pos) : ℝ :=
  if c.interaction = InteractionType.OFF then 0
  else vIntAux c.a D (pairList c.n_particles)

/-- The pair scan of `VMCSolver::Psi_f`: walk the pairs in loop order, return
0 at the first pair at or below the hard-sphere radius, otherwise multiply
the Jastrow factors. -/
noncomputable def psiFAux (a : ℝ) (D : Pos) : List (ℕ × ℕ) → ℝ
  | [] => 1
  | (i, j) :: rest => if D i j ≤ a then 0 else (1 - a / D i j) * psiFAux a D rest

/-- `VMCSolver::Psi_f`, the two-body (Jastrow) wavefunction factor. -/
noncomputable def Psi_f (c : VMCConfiguration) (D : Pos) : ℝ :=
  if c.interaction = InteractionType.OFF then 1
  else psiFAux c.a D (pairList c.n_particles)

theorem vIntAux_of_exists (a : ℝ) (D : Pos) :
    ∀ l : List (ℕ × ℕ), (∃ p ∈ l, D p.1 p.2 ≤ a) → vIntAux a D l = dblMax := by
  intro l
  induction l with
  | nil =>
    rintro ⟨p, hp, _⟩
    cases hp
  | cons q rest ih =>
    rintro ⟨p, hp, hle⟩
    obtain ⟨i, j⟩ := q
    unfold vIntAux
    by_cases hq : D i j ≤ a
    · rw [if_pos hq]
    · rw [if_neg hq]
      refine ih ⟨p, ?_, hle⟩
      rcases List.mem_cons.mp hp with rfl | hin
      · exact absurd hle hq
      · exact hin

theorem vIntAux_of_forall (a : ℝ) (D : Pos) :
    ∀ l : List (ℕ × ℕ), (∀ p ∈ l, a < D p.1 p.2) → vIntAux a D l = 0 := by
  intro l
  induction l with
  | nil => intro _; rfl
  | cons q rest ih =>
    intro hall
    obtain ⟨i, j⟩ := q
    unfold vIntAux
    rw [if_neg (not_le.mpr (hall (i, j) (List.mem_cons_self _ _)))]
    exact ih fun p hp => hall p (List.mem_cons_of_mem _ hp)

theorem vIntAux_cases (a : ℝ) (D : Pos) :
    ∀ l : List (ℕ × ℕ), vIntAux a D l = 0 ∨ vIntAux a D l = dblMax := by
  intro l
  induction l with
  | nil => exact Or.inl rfl
  | cons q rest ih =>
    obtain ⟨i, j⟩ := q
    unfold vIntAux
    by_cases hq : D i j ≤ a
    · rw [if_pos hq]
      exact Or.inr rfl
    · rw [if_neg hq]
      exact ih

theorem psiFAux_of_exists (a : ℝ) (D : Pos) :
    ∀ l : List (ℕ × ℕ), (∃ p ∈ l, D p.1 p.2 ≤ a) → psiFAux a D l = 0 := by
  intro l
  induction l with
  | nil =>
    rintro ⟨p, hp, _⟩
    cases hp
  | cons q rest ih =>
    rintro ⟨p, hp, hle⟩
    obtain ⟨i, j⟩ := q
    unfold psiFAux
    by_cases hq : D i j ≤ a
    · rw [if_pos hq]
    · rw [if_neg hq]
      have : psiFAux a D rest = 0 := by
        refine ih ⟨p, ?_, hle⟩
        rcases List.mem_cons.mp hp with rfl | hin
        · exact absurd hle hq
        · exact hin
      rw [this, mul_zero]

theorem psiFAux_of_forall (a : ℝ) (D : Pos) :
    ∀ l : List (ℕ × ℕ), (∀ p ∈ l, a < D p.1 p.2) →
      psiFAux a D l = (l.map fun p => 1 - a / D p.1 p.2).prod := by
  intro l
  induction l with
  | nil => intro _; rfl
  | cons q rest ih =>
    intro hall
    obtain ⟨i, j⟩ := q
    unfold psiFAux
    rw [if_neg (not_le.mpr (hall (i, j) (List.mem_cons_self _ _)))]
    rw [ih fun p hp => hall p (List.mem_cons_of_mem _ hp)]
    rfl

/-- C6: with interaction OFF the Jastrow factor is identically 1; with
interaction ON it is exactly zero whenever some pairwise distance is at or
below the hard-sphere radius, and otherwise equals the product over all pairs
i < j of (1 - a / distance). -/
theorem psi_f_spec (c : VMCConfiguration) (D : Pos) :
    (c.interaction = InteractionType.OFF → Psi_f c D = 1) ∧
    (c.interaction = InteractionType.ON →
      ((∃ i j, i < j ∧ j < c.n_particles ∧ D i j ≤ c.a) → Psi_f c D = 0) ∧
      ((∀ i j, i < j → j < c.n_particles → c.a < D i j) →
        Psi_f c D =
          ((pairList c.n_particles).map fun p => 1 - c.a / D p.1 p.2).prod)) := by
  refine ⟨fun hoff => ?_, fun hon => ⟨fun hex => ?_, fun hall => ?_⟩⟩
  · unfold Psi_f
    rw [if_pos hoff]
  · unfold Psi_f
    rw [if_neg (by rw [hon]; intro hc; cases hc)]
    obtain ⟨i, j, hij, hj, hle⟩ := hex
    exact psiFAux_of_exists c.a D _
      ⟨(i, j), mem_pairList.mpr ⟨hij, hj⟩, hle⟩
  · unfold Psi_f
    rw [if_neg (by rw [hon]; intro hc; cases hc)]
    exact psiFAux_of_forall c.a D _ fun p hp => by
      obtain ⟨h1, h2⟩ := mem_pairList.mp hp
      exact hall p.1 p.2 h1 h2

/-- Witness for C6: a two-particle configuration with interaction ON and both
particles at the same point has a vanishing Jastrow factor. -/
theorem psi_f_spec_witness :
    Psi_f
      { dims := 1, n_particles := 2, ho_type := HOType.SYMMETRIC,
        interaction := InteractionType.ON,
        acceleration := AnalyticAcceleration.ON, omega_ho := 1, omega_z := 1,
        a := 1 / 2, h := 1 / 1000, h2 := 1000000, step_length := 1 }
      (fun _ _ => 0) = 0 :=
  ((psi_f_spec _ (fun _ _ => 0)).2 rfl).1 ⟨0, 1, by norm_num⟩

/-- C7: the interaction potential is zero when interaction is OFF or when
every cached pairwise distance exceeds the hard-sphere radius, equals the
saturating largest-finite-double sentinel when interaction is ON and some
pair is at or below the radius, and in every case its value is one of the
two finite reals 0 and dblMax. -/
theorem v_int_spec (c : VMCConfiguration) (D : Pos) :
    (V_int c D = 0 ∨ V_int c D = dblMax) ∧
    (c.interaction = InteractionType.OFF → V_int c D = 0) ∧
    ((∀ i j, i < j → j < c.n_particles → c.a < D i j) → V_int c D = 0) ∧
    (c.interaction = InteractionType.ON →
      (∃ i j, i < j ∧ j < c.n_particles ∧ D i j ≤ c.a) →
        V_int c D = dblMax) ∧
    0 < dblMax := by
  refine ⟨?_, fun hoff => ?_, fun hall => ?_, fun hon hex => ?_, by
    unfold dblMax
    norm_num⟩
  · unfold V_int
    by_cases hoff : c.interaction = InteractionType.OFF
    · rw [if_pos hoff]
      exact Or.inl rfl
    · rw [if_neg hoff]
      exact vIntAux_cases c.a D _
  · unfold V_int
    rw [if_pos hoff]
  · unfold V_int
    by_cases hoff : c.interaction = InteractionType.OFF
    · rw [if_pos hoff]
    · rw [if_neg hoff]
      exact vIntAux_of_forall c.a D _ fun p hp => by
        obtain ⟨h1, h2⟩ := mem_pairList.mp hp
        exact hall p.1 p.2 h1 h2
  · unfold V_int
    rw [if_neg (by rw [hon]; intro hc; cases hc)]
    obtain ⟨i, j, hij, hj, hle⟩ := hex
    exact vIntAux_of_exists c.a D _
      ⟨(i, j), mem_pairList.mpr ⟨hij, hj⟩, hle⟩

/-- Sum of squared coordinates over all particles, the accumulator `g` of
`VMCSolver::Psi_g`. -/
def sumSq (np dims : ℕ) (R : Pos) : ℝ :=
  ∑ i ∈ Finset.range np, ∑ d ∈ Finset.range dims, R i d ^ 2

/-- `VMCSolver::Psi_g`, the Gaussian one-body factor. -/
noncomputable def Psi_g (c : VMCConfiguration) (alpha : ℝ) (R : Pos) : ℝ :=
  Real.exp (-alpha * sumSq c.n_particles c.dims R)

/-- `VMCSolver::Psi`, the total trial wavefunction value. -/
noncomputable def Psi (c : VMCConfiguration) (alpha : ℝ) (R : Pos) (D : Pos) :
    ℝ :=
  Psi_g c alpha R * Psi_f c D

/-- `VMCSolver::V_ext`, the external harmonic trap potential. -/
noncomputable def V_ext (c : VMCConfiguration) (R : Pos) : ℝ :=
  0.5 * ∑ i ∈ Finset.range c.n_particles,
    (if c.ho_type = HOType.ELLIPTICAL ∧ c.dims = 3 then
      c.omega_ho * (R i 0 * R i 0 + R i 1 * R i 1) + c.omega_z * (R i 2 * R i 2)
    else c.omega_ho * ∑ d ∈ Finset.range c.dims, R i d ^ 2)

/-- Overwrite one coordinate of one particle with an absolute value, the
`R(d, i) = temp + h` assignments of the numeric kinetic-energy loop. -/
def perturb (R : Pos) (i d : ℕ) (x : ℝ) : Pos := fun i2 d2 =>
  if i2 = i ∧ d2 = d then x else R i2 d2

/-- The (particle, coordinate) pairs in the order the numeric kinetic-energy
loops visit them. -/
def coordList (np dims : ℕ) : List (ℕ × ℕ) :=
  (List.range np).flatMap fun i => (List.range dims).map fun d => (i, d)

/-- One iteration of the numeric kinetic-energy loop: evaluate the
wavefunction at the +h and -h perturbations of one coordinate (updating the
distance matrix around each evaluation when interaction is ON) and restore
the coordinate and the distance matrix afterwards.  The state is the pair of
the accumulator `Ek` and the current distance matrix. -/
noncomputable def ekinStep (c : VMCConfiguration) (alpha : ℝ) (R : Pos)
    (acc : ℝ × Pos) (p : ℕ × ℕ) : ℝ × Pos :=
  let i := p.1
  let d := p.2
  let temp := R i d
  let Rp := perturb R i d (temp + c.h)
  let D1 := if c.interaction = InteractionType.ON then
    updateDist c.n_particles c.dims i Rp acc.2 else acc.2
  let Ek1 := acc.1 + Psi c alpha Rp D1
  let Rm := perturb R i d (temp - c.h)
  let D2 := if c.interaction = InteractionType.ON then
    updateDist c.n_particles c.dims i Rm D1 else D1
  let Ek2 := Ek1 + Psi c alpha Rm D2
  let D3 := if c.interaction = InteractionType.ON then
    updateDist c.n_particles c.dims i R D2 else D2
  (Ek2, D3)

/-- `VMCSolver::E_kinetic`.  Returns the kinetic-energy estimate together
with the distance matrix left behind by the perturb/restore loop. -/
noncomputable def E_kinetic (c : VMCConfiguration) (alpha : ℝ) (R D : Pos) :
    ℝ × Pos :=
  let start : ℝ × Pos :=
    (-2 * ((c.n_particles * c.dims : ℕ) : ℝ) * Psi c alpha R D, D)
  let res := (coordList c.n_particles c.dims).foldl (ekinStep c alpha R) start
  (-0.5 * res.1 * c.h2, res.2)

/-- Truncation of a double toward zero on conversion to int, as in the
`const int one_body_beta_term = -(...)` declaration of `VMCSolver::E_local`. -/
noncomputable def truncInt (x : ℝ) : ℤ :=
  if 0 ≤ x then ⌊x⌋ else ⌈x⌉

/-- The `one_body_beta_term` of the analytic branch of `VMCSolver::E_local`:
the double value -(dims == 3 ? 2 + beta : (int) dims) converted to int. -/
noncomputable def oneBodyBetaTerm (c : VMCConfiguration) (beta : ℝ) : ℤ :=
  truncInt (-(if c.dims = 3 then 2 + beta else (c.dims : ℝ)))

/-- The skewed coordinate `r_k_skewed` of the analytic branch: the axial
coordinate is scaled by beta in three dimensions. -/
def skew (c : VMCConfiguration) (beta : ℝ) (R : Pos) (k d : ℕ) : ℝ :=
  if c.dims = 3 ∧ d = 2 then beta * R k d else R k d

/-- Normalized distance-matrix read `dist(std::min(k, j), std::max(k, j))`. -/
def rnorm (D : Pos) (k j : ℕ) : ℝ :=
  D (min k j) (max k j)

/-- The interaction contribution of particle k in the analytic branch of
`VMCSolver::E_local`: the two-body terms, the three-body cross terms, and
the -4 alpha dot(r_k_skewed, term) correction, with the accumulator vector
`term` taken as zero-initialized. -/
noncomputable def interTerm (c : VMCConfiguration) (alpha beta : ℝ)
    (R D : Pos) (k : ℕ) : ℝ :=
  (∑ j ∈ (Finset.range c.n_particles).erase k,
      (c.a * (c.a - 2 * rnorm D k j) /
          ((rnorm D k j ^ 2) * (rnorm D k j - c.a) * (rnorm D k j - c.a))
        + 2 * c.a / ((rnorm D k j ^ 2) * (rnorm D k j - c.a))
        + ∑ i ∈ (Finset.range c.n_particles).erase k,
            (∑ d ∈ Finset.range c.dims, (R k d - R i d) * (R k d - R j d)) *
              (c.a * c.a /
                ((rnorm D k i ^ 2) * (rnorm D k j ^ 2) *
                  (rnorm D k i - c.a) * (rnorm D k j - c.a)))))
    - 4 * alpha * ∑ d ∈ Finset.range c.dims,
        skew c beta R k d *
          (∑ j ∈ (Finset.range c.n_particles).erase k,
            (R k d - R j d) * (c.a / ((rnorm D k j ^ 2) * (rnorm D k j - c.a))))

/-- The accumulator `E_L` of the analytic branch of `VMCSolver::E_local`. -/
noncomputable def ELacc (c : VMCConfiguration) (alpha beta : ℝ) (R D : Pos) :
    ℝ :=
  ∑ k ∈ Finset.range c.n_particles,
    (2 * alpha *
        (2 * alpha * (∑ d ∈ Finset.range c.dims, skew c beta R k d ^ 2) +
          (oneBodyBetaTerm c beta : ℝ))
      + if c.interaction = InteractionType.OFF then 0
        else interTerm c alpha beta R D k)

/-- `VMCSolver::E_local`, together with the distance matrix left behind (the
numeric branch lets `E_kinetic` update and restore the matrix; operands are
taken left to right). -/
noncomputable def E_localS (c : VMCConfiguration) (alpha beta : ℝ)
    (R D : Pos) : ℝ × Pos :=
  if c.acceleration = AnalyticAcceleration.OFF then
    let ek := E_kinetic c alpha R D
    (ek.1 / Psi c alpha R ek.2 + V_ext c R + V_int c ek.2, ek.2)
  else
    (V_ext c R + V_int c D - 0.5 * ELacc c alpha beta R D, D)

/-- The value computed by `VMCSolver::E_local`. -/
noncomputable def E_local (c : VMCConfiguration) (alpha beta : ℝ)
    (R D : Pos) : ℝ :=
  (E_localS c alpha beta R D).1

/-- The concrete configuration of the C3 regression fixture: one dimension,
two particles, symmetric trap, interaction OFF, analytic mode. -/
noncomputable def cfgC3 : VMCConfiguration :=
  { dims := 1, n_particles := 2, ho_type := HOType.SYMMETRIC,
    interaction := InteractionType.OFF,
    acceleration := AnalyticAcceleration.ON, omega_ho := 1, omega_z := 1,
    a := 0.0043, h := 0.001, h2 := 1000000, step_length := 1 }

/-- C3: with dimensionality 1, two particles, interaction OFF, analytic mode,
alpha = 1/2, beta = 1 and both particles at the origin, the analytic local
energy is exactly dims * n_particles * alpha = 1. -/
theorem analytic_local_energy_origin_eq_one :
    E_local cfgC3 (1 / 2) 1 (fun _ _ => 0) (fun _ _ => 0) = 1 := by
  have hacc : cfgC3.acceleration = AnalyticAcceleration.ON := rfl
  have hint : cfgC3.interaction = InteractionType.OFF := rfl
  have hho : cfgC3.ho_type = HOType.SYMMETRIC := rfl
  have hdims : cfgC3.dims = 1 := rfl
  have hnp : cfgC3.n_particles = 2 := rfl
  have hobt : oneBodyBetaTerm cfgC3 1 = -1 := by
    unfold oneBodyBetaTerm truncInt
    rw [hdims, if_neg (by norm_num), if_neg (by norm_num)]
    norm_num
    rw [show (-1 : ℝ) = ((-1 : ℤ) : ℝ) by norm_num]
    exact Int.ceil_intCast (-1)
  unfold E_local E_localS
  rw [hacc, if_neg (by simp)]
  unfold ELacc V_ext V_int
  rw [hobt]
  norm_num [skew, hint, hho, hdims, hnp, Finset.sum_range_succ]

/-- The mutable state of one `VMCSolver::run_MC` invocation: the accepted and
trial position arrays, the distance matrix, the current wavefunction value,
the energy sums, the accepted-move counter, and the index of the next value
to be consumed from the random stream. -/
structure MCState where
  R_old : Pos
  R_new : Pos
  D : Pos
  psiOld : ℝ
  Esum : ℝ
  E2sum : ℝ
  acc : ℕ
  k : ℕ

/-- The trial position proposed for particle i: each of its coordinates is
displaced by the step length times the next random draw; every other entry of
the trial array is left as it was. -/
def proposeCol (c : VMCConfiguration) (s : ℕ → ℝ) (st : MCState) (i : ℕ) :
    Pos := fun i2 d =>
  if i2 = i ∧ d < c.dims then st.R_old i2 d + c.step_length * s (st.k + d)
  else st.R_new i2 d

/-- Copy the coordinates of particle i from one position array into another,
the per-coordinate copy loops of the accept/reject branches. -/
def copyCol (dims i : ℕ) (src dst : Pos) : Pos := fun i2 d =>
  if i2 = i ∧ d < dims then src i2 d else dst i2 d

/-- One particle move of the Metropolis loop in `VMCSolver::run_MC`: propose
a displacement of particle i, update the distance matrix for the trial
position, accept when the uniform draw is at most the squared wavefunction
ratio (committing trial position and wavefunction value), otherwise revert
the trial position and re-update the distance matrix; afterwards sample the
local energy at the now-current configuration. -/
noncomputable def mcParticleStep (c : VMCConfiguration) (alpha beta : ℝ)
    (s : ℕ → ℝ) (st : MCState) (i : ℕ) : MCState :=
  let Rn := proposeCol c s st i
  let k1 := st.k + c.dims
  let D1 := updateDist c.n_particles c.dims i Rn st.D
  let psiNew := Psi c alpha Rn D1
  let u := s k1
  let k2 := k1 + 1
  if u ≤ psiNew * psiNew / (st.psiOld * st.psiOld) then
    let Rold2 := copyCol c.dims i Rn st.R_old
    let el := E_localS c alpha beta Rn D1
    { R_old := Rold2, R_new := Rn, D := el.2, psiOld := psiNew,
      Esum := st.Esum + el.1, E2sum := st.E2sum + el.1 * el.1,
      acc := st.acc + 1, k := k2 }
  else
    let D2 := updateDist c.n_particles c.dims i st.R_old D1
    let Rn2 := copyCol c.dims i st.R_old Rn
    let el := E_localS c alpha beta Rn2 D2
    { R_old := st.R_old, R_new := Rn2, D := el.2, psiOld := st.psiOld,
      Esum := st.Esum + el.1, E2sum := st.E2sum + el.1 * el.1,
      acc := st.acc, k := k2 }

/-- One outer cycle of `VMCSolver::run_MC`: recompute the current
wavefunction value, then move each particle in turn. -/
noncomputable def mcCycle (c : VMCConfiguration) (alpha beta : ℝ)
    (s : ℕ → ℝ) (st : MCState) : MCState :=
  (List.range c.n_particles).foldl (mcParticleStep c alpha beta s)
    { st with psiOld := Psi c alpha st.R_old st.D }

/-- The random initial position array of `VMCSolver::run_MC`, drawn from the
stream starting at index k0. -/
def initR (c : VMCConfiguration) (s : ℕ → ℝ) (k0 : ℕ) : Pos := fun i d =>
  if i < c.n_particles ∧ d < c.dims then
    c.step_length * s (k0 + i * c.dims + d)
  else 0

/-- The state of `VMCSolver::run_MC` after the random start and the initial
fill of the zeroed distance matrix. -/
noncomputable def mcInitState (c : VMCConfiguration) (s : ℕ → ℝ) (k0 : ℕ) :
    MCState :=
  { R_old := initR c s k0, R_new := initR c s k0,
    D := initDist c.n_particles c.dims (initR c s k0) (fun _ _ => 0),
    psiOld := 0, Esum := 0, E2sum := 0, acc := 0,
    k := k0 + c.n_particles * c.dims }

/-- The state of `VMCSolver::run_MC` after all cycles. -/
noncomputable def runMCState (c : VMCConfiguration) (alpha beta : ℝ)
    (s : ℕ → ℝ) (k0 : ℕ) (n_cycles : ℕ) : MCState :=
  (List.range n_cycles).foldl (fun st _ => mcCycle c alpha beta s st)
    (mcInitState c s k0)

/-- The `Results` record. -/
structure Results where
  E : ℝ
  E2 : ℝ
  variance : ℝ
  alpha : ℝ
  beta : ℝ
  acceptance_rate : ℝ

/-- The `Results` record built from the final sums of `VMCSolver::run_MC`. -/
noncomputable def mkResults (c : VMCConfiguration) (alpha beta : ℝ)
    (st : MCState) (n_cycles : ℕ) : Results :=
  let energy := st.Esum / ((n_cycles * c.n_particles : ℕ) : ℝ)
  let energy_squared := st.E2sum / ((n_cycles * c.n_particles : ℕ) : ℝ)
  { E := energy, E2 := energy_squared,
    variance := energy_squared - energy * energy,
    alpha := alpha, beta := beta,
    acceptance_rate := (st.acc : ℝ) / ((n_cycles * c.n_particles : ℕ) : ℝ) }

/-- `VMCSolver::run_MC`. -/
noncomputable def run_MC (c : VMCConfiguration) (alpha beta : ℝ)
    (s : ℕ → ℝ) (k0 : ℕ) (n_cycles : ℕ) : Results :=
  mkResults c alpha beta (runMCState c alpha beta s k0 n_cycles) n_cycles

/-- One output line of the sweep: the header or one grid-point record
`alpha beta <E> <E^2>`. -/
inductive OutLine
  | header
  | point (alpha beta E E2 : ℝ)

/-- The output stream model: the lines written so far and whether the stream
ends with an explicit flush. -/
structure OStream where
  lines : List OutLine
  flushed : Bool

/-- Append one line to the stream. -/
def writeLine (o : OStream) (l : OutLine) : OStream :=
  { lines := o.lines ++ [l], flushed := false }

/-- `out << std::flush`. -/
def flushStream (o : OStream) : OStream :=
  { o with flushed := true }

/-- `arma::linspace`: n evenly spaced values from lo to hi; a single point
collapses to hi. -/
noncomputable def linspace (lo hi : ℝ) (n : ℕ) : List ℝ :=
  if n = 1 then [hi]
  else (List.range n).map fun i : ℕ => lo + (i : ℝ) * ((hi - lo) / ((n : ℝ) - 1))

/-- The (alpha, beta) grid in sweep order: alpha outer, beta inner. -/
noncomputable def gridPoints (alpha_min alpha_max : ℝ) (alpha_n : ℕ)
    (beta_min beta_max : ℝ) (beta_n : ℕ) : List (ℝ × ℝ) :=
  (linspace alpha_min alpha_max alpha_n).flatMap fun a =>
    (linspace beta_min beta_max beta_n).map fun b => (a, b)

/-- The grid loop of `VMCSolver::vmc`: for each parameter pair run the
Metropolis sampler (continuing the random stream), write one output line, and
retain the record with strictly smaller variance. -/
noncomputable def sweepAux (c : VMCConfiguration) (n_cycles : ℕ)
    (s : ℕ → ℝ) :
    List (ℝ × ℝ) → ℕ → Results → OStream → Results × OStream × ℕ
  | [], k, best, o => (best, o, k)
  | (a, b) :: rest, k, best, o =>
    let st := runMCState c a b s k n_cycles
    let res := mkResults c a b st n_cycles
    let o2 := writeLine o (OutLine.point a b res.E res.E2)
    let best2 := if res.variance < best.variance then res else best
    sweepAux c n_cycles s rest st.k best2 o2

/-- The per-grid-point result records of the sweep, in evaluation order. -/
noncomputable def sweepResults (c : VMCConfiguration) (n_cycles : ℕ)
    (s : ℕ → ℝ) : List (ℝ × ℝ) → ℕ → List Results
  | [], _ => []
  | (a, b) :: rest, k =>
    let st := runMCState c a b s k n_cycles
    mkResults c a b st n_cycles :: sweepResults c n_cycles s rest st.k

/-- `VMCSolver::vmc`: initialize the best record with the sentinel variance,
write the header, run the grid, flush on completion, and return the best
record.  `init` carries the indeterminate initial contents of the
default-constructed best record. -/
noncomputable def vmc (c : VMCConfiguration) (n_cycles : ℕ) (s : ℕ → ℝ)
    (k0 : ℕ) (init : Results) (alpha_min alpha_max : ℝ) (alpha_n : ℕ)
    (beta_min beta_max : ℝ) (beta_n : ℕ) (o0 : OStream) :
    Results × OStream × ℕ :=
  let best0 := { init with variance := dblMax }
  let o1 := writeLine o0 OutLine.header
  let r := sweepAux c n_cycles s
    (gridPoints alpha_min alpha_max alpha_n beta_min beta_max beta_n)
    k0 best0 o1
  (r.1, flushStream r.2.1, r.2.2)

theorem cacheConsistent_congr {np dims : ℕ} {R Rx : Pos}
    (h : ∀ i d, d < dims → Rx i d = R i d) {D : Pos}
    (hcons : cacheConsistent np dims R D) :
    cacheConsistent np dims Rx D := by
  intro i j hij hj
  rw [hcons i j hij hj]
  exact (pdist_congr dims i j (fun d hd => h i d hd) (fun d hd => h j d hd)).symm

theorem ekin_foldl_consistent (c : VMCConfiguration) (alpha : ℝ) (R : Pos) :
    ∀ (l : List (ℕ × ℕ)) (E0 : ℝ) (D : Pos),
      cacheConsistent c.n_particles c.dims R D →
      cacheConsistent c.n_particles c.dims R
        ((l.foldl (ekinStep c alpha R) (E0, D)).2) := by
  intro l
  induction l with
  | nil => intro E0 D hD; exact hD
  | cons p rest ih =>
    intro E0 D hD
    rw [List.foldl_cons]
    have hstep : cacheConsistent c.n_particles c.dims R
        ((ekinStep c alpha R (E0, D) p).2) := by
      unfold ekinStep
      by_cases hon : c.interaction = InteractionType.ON
      · simp only [hon, if_pos]
        have h1 : cacheConsistent c.n_particles c.dims
            (perturb R p.1 p.2 (R p.1 p.2 + c.h))
            (updateDist c.n_particles c.dims p.1
              (perturb R p.1 p.2 (R p.1 p.2 + c.h)) D) :=
          update_consistent _ _ _ hD fun i2 d2 hne _ => by
            unfold perturb
            rw [if_neg (by rintro ⟨rfl, _⟩; exact hne rfl)]
        have h2 : cacheConsistent c.n_particles c.dims
            (perturb R p.1 p.2 (R p.1 p.2 - c.h))
            (updateDist c.n_particles c.dims p.1
              (perturb R p.1 p.2 (R p.1 p.2 - c.h))
              (updateDist c.n_particles c.dims p.1
                (perturb R p.1 p.2 (R p.1 p.2 + c.h)) D)) :=
          update_consistent _ _ _ h1 fun i2 d2 hne _ => by
            unfold perturb
            rw [if_neg (by rintro ⟨rfl, _⟩; exact hne rfl),
              if_neg (by rintro ⟨rfl, _⟩; exact hne rfl)]
        exact update_consistent _ _ _ h2 fun i2 d2 hne _ => by
          unfold perturb
          rw [if_neg (by rintro ⟨rfl, _⟩; exact hne rfl)]
      · simp only [if_neg hon]
        exact hD
    have := ih ((ekinStep c alpha R (E0, D) p).1)
      ((ekinStep c alpha R (E0, D) p).2) hstep
    exact this

theorem E_localS_consistent (c : VMCConfiguration) (alpha beta : ℝ)
    (R D : Pos) (hD : cacheConsistent c.n_particles c.dims R D) :
    cacheConsistent c.n_particles c.dims R ((E_localS c alpha beta R D).2) := by
  unfold E_localS
  by_cases hacc : c.acceleration = AnalyticAcceleration.OFF
  · rw [if_pos hacc]
    exact ekin_foldl_consistent c alpha R _ _ D hD
  · rw [if_neg hacc]
    exact hD

/-- C5: in one Metropolis particle move the acceptance test compares the
uniform draw against the squared wavefunction ratio
(Psi(trial) / Psi(current))^2, the move is accepted exactly when the draw is
at most the ratio, acceptance commits the trial position and wavefunction
value, and rejection reverts the trial position to the current one and leaves
the distance cache consistent with the current (unmoved) configuration. -/
theorem metropolis_step_spec (c : VMCConfiguration) (alpha beta : ℝ)
    (s : ℕ → ℝ) (st : MCState) (i : ℕ)
    (hcons : cacheConsistent c.n_particles c.dims st.R_old st.D)
    (hRN : ∀ i2 d, d < c.dims → st.R_new i2 d = st.R_old i2 d) :
    ((mcParticleStep c alpha beta s st i).acc = st.acc + 1 ↔
      s (st.k + c.dims) ≤
        (Psi c alpha (proposeCol c s st i)
            (updateDist c.n_particles c.dims i (proposeCol c s st i) st.D) /
          st.psiOld) ^ 2) ∧
    (s (st.k + c.dims) ≤
        (Psi c alpha (proposeCol c s st i)
            (updateDist c.n_particles c.dims i (proposeCol c s st i) st.D) /
          st.psiOld) ^ 2 →
      (mcParticleStep c alpha beta s st i).psiOld =
        Psi c alpha (proposeCol c s st i)
          (updateDist c.n_particles c.dims i (proposeCol c s st i) st.D) ∧
      ∀ d, d < c.dims →
        (mcParticleStep c alpha beta s st i).R_old i d =
          proposeCol c s st i i d) ∧
    (¬ s (st.k + c.dims) ≤
        (Psi c alpha (proposeCol c s st i)
            (updateDist c.n_particles c.dims i (proposeCol c s st i) st.D) /
          st.psiOld) ^ 2 →
      (mcParticleStep c alpha beta s st i).psiOld = st.psiOld ∧
      (∀ i2 d, d < c.dims →
        (mcParticleStep c alpha beta s st i).R_new i2 d = st.R_old i2 d) ∧
      cacheConsistent c.n_particles c.dims st.R_old
        (mcParticleStep c alpha beta s st i).D) := by
  have hratio :
      (Psi c alpha (proposeCol c s st i)
          (updateDist c.n_particles c.dims i (proposeCol c s st i) st.D) /
        st.psiOld) ^ 2 =
      Psi c alpha (proposeCol c s st i)
          (updateDist c.n_particles c.dims i (proposeCol c s st i) st.D) *
        Psi c alpha (proposeCol c s st i)
          (updateDist c.n_particles c.dims i (proposeCol c s st i) st.D) /
        (st.psiOld * st.psiOld) := by
    rw [div_pow]
    ring_nf
  have hRnOld : ∀ i2 d, i2 ≠ i → d < c.dims →
      proposeCol c s st i i2 d = st.R_old i2 d := by
    intro i2 d hne hd
    unfold proposeCol
    rw [if_neg (by rintro ⟨rfl, _⟩; exact hne rfl)]
    exact hRN i2 d hd
  rw [hratio]
  by_cases hu : s (st.k + c.dims) ≤
      Psi c alpha (proposeCol c s st i)
          (updateDist c.n_particles c.dims i (proposeCol c s st i) st.D) *
        Psi c alpha (proposeCol c s st i)
          (updateDist c.n_particles c.dims i (proposeCol c s st i) st.D) /
        (st.psiOld * st.psiOld)
  · have hstep : mcParticleStep c alpha beta s st i =
        { R_old := copyCol c.dims i (proposeCol c s st i) st.R_old,
          R_new := proposeCol c s st i,
          D := (E_localS c alpha beta (proposeCol c s st i)
            (updateDist c.n_particles c.dims i (proposeCol c s st i)
              st.D)).2,
          psiOld := Psi c alpha (proposeCol c s st i)
            (updateDist c.n_particles c.dims i (proposeCol c s st i) st.D),
          Esum := st.Esum + (E_localS c alpha beta (proposeCol c s st i)
            (updateDist c.n_particles c.dims i (proposeCol c s st i)
              st.D)).1,
          E2sum := st.E2sum + (E_localS c alpha beta (proposeCol c s st i)
              (updateDist c.n_particles c.dims i (proposeCol c s st i)
                st.D)).1 *
            (E_localS c alpha beta (proposeCol c s st i)
              (updateDist c.n_particles c.dims i (proposeCol c s st i)
                st.D)).1,
          acc := st.acc + 1, k := st.k + c.dims + 1 } := by
      unfold mcParticleStep
      rw [if_pos hu]
    rw [hstep]
    refine ⟨⟨fun _ => hu, fun _ => rfl⟩, fun _ => ⟨rfl, fun d hd => ?_⟩,
      fun hn => absurd hu hn⟩
    show copyCol c.dims i (proposeCol c s st i) st.R_old i d = _
    unfold copyCol
    rw [if_pos ⟨rfl, hd⟩]
  · have hstep : mcParticleStep c alpha beta s st i =
        { R_old := st.R_old,
          R_new := copyCol c.dims i st.R_old (proposeCol c s st i),
          D := (E_localS c alpha beta
            (copyCol c.dims i st.R_old (proposeCol c s st i))
            (updateDist c.n_particles c.dims i st.R_old
              (updateDist c.n_particles c.dims i (proposeCol c s st i)
                st.D))).2,
          psiOld := st.psiOld,
          Esum := st.Esum + (E_localS c alpha beta
            (copyCol c.dims i st.R_old (proposeCol c s st i))
            (updateDist c.n_particles c.dims i st.R_old
              (updateDist c.n_particles c.dims i (proposeCol c s st i)
                st.D))).1,
          E2sum := st.E2sum + (E_localS c alpha beta
              (copyCol c.dims i st.R_old (proposeCol c s st i))
              (updateDist c.n_particles c.dims i st.R_old
                (updateDist c.n_particles c.dims i (proposeCol c s st i)
                  st.D))).1 *
            (E_localS c alpha beta
              (copyCol c.dims i st.R_old (proposeCol c s st i))
              (updateDist c.n_particles c.dims i st.R_old
                (updateDist c.n_particles c.dims i (proposeCol c s st i)
                  st.D))).1,
          acc := st.acc, k := st.k + c.dims + 1 } := by
      unfold mcParticleStep
      rw [if_neg hu]
    rw [hstep]
    refine ⟨⟨fun hacc => absurd hacc (by simp), fun habs => absurd habs hu⟩,
      fun habs => absurd habs hu, fun _ => ⟨rfl, fun i2 d hd => ?_, ?_⟩⟩
    · show copyCol c.dims i st.R_old (proposeCol c s st i) i2 d = _
      unfold copyCol
      by_cases hq : i2 = i ∧ d < c.dims
      · rw [if_pos hq]
      · rw [if_neg hq]
        have hne : i2 ≠ i := fun he => hq ⟨he, hd⟩
        exact hRnOld i2 d hne hd
    · have hD1 : cacheConsistent c.n_particles c.dims (proposeCol c s st i)
          (updateDist c.n_particles c.dims i (proposeCol c s st i) st.D) :=
        update_consistent _ _ _ hcons fun i2 d hne hd =>
          hRnOld i2 d hne hd
      have hD2 : cacheConsistent c.n_particles c.dims st.R_old
          (updateDist c.n_particles c.dims i st.R_old
            (updateDist c.n_particles c.dims i (proposeCol c s st i) st.D)) :=
        update_consistent _ _ _ hD1 fun i2 d hne hd =>
          (hRnOld i2 d hne hd).symm
      have hRn2 : ∀ i2 d, d < c.dims →
          copyCol c.dims i st.R_old (proposeCol c s st i) i2 d =
            st.R_old i2 d := by
        intro i2 d hd
        unfold copyCol
        by_cases hq : i2 = i ∧ d < c.dims
        · rw [if_pos hq, hq.1]
        · rw [if_neg hq]
          exact hRnOld i2 d (fun he => hq ⟨he, hd⟩) hd
      have hD2x : cacheConsistent c.n_particles c.dims
          (copyCol c.dims i st.R_old (proposeCol c s st i))
          (updateDist c.n_particles c.dims i st.R_old
            (updateDist c.n_particles c.dims i (proposeCol c s st i) st.D)) :=
        cacheConsistent_congr hRn2 hD2
      have hfin := E_localS_consistent c alpha beta
        (copyCol c.dims i st.R_old (proposeCol c s st i))
        (updateDist c.n_particles c.dims i st.R_old
          (updateDist c.n_particles c.dims i (proposeCol c s st i) st.D))
        hD2x
      exact cacheConsistent_congr (fun i2 d hd => (hRn2 i2 d hd).symm) hfin

/-- A one-particle configuration used by the Metropolis witness. -/
noncomputable def cfgW5 : VMCConfiguration :=
  { dims := 1, n_particles := 1, ho_type := HOType.SYMMETRIC,
    interaction := InteractionType.OFF,
    acceleration := AnalyticAcceleration.ON, omega_ho := 1, omega_z := 1,
    a := 0.0043, h := 0.001, h2 := 1000000, step_length := 1 }

/-- A concrete sampler state used by the Metropolis witness. -/
def stW5 : MCState :=
  { R_old := fun _ _ => 0, R_new := fun _ _ => 0, D := fun _ _ => 0,
    psiOld := 1, Esum := 0, E2sum := 0, acc := 0, k := 0 }

/-- Witness for C5: with an all-zero random stream the draw is 0, the squared
ratio is nonnegative, so the concrete move is accepted and the accepted-move
counter increments. -/
theorem metropolis_step_spec_witness :
    (mcParticleStep cfgW5 (1 / 2) 1 (fun _ => 0) stW5 0).acc = stW5.acc + 1 := by
  have hcons : cacheConsistent cfgW5.n_particles cfgW5.dims stW5.R_old
      stW5.D := by
    intro i j hij hj
    have hj1 : j < 1 := hj
    exact absurd hij (by omega)
  have h := metropolis_step_spec cfgW5 (1 / 2) 1 (fun _ => 0) stW5 0 hcons
    (fun _ _ _ => rfl)
  exact h.1.mpr (sq_nonneg _)

theorem mcParticleStep_acc_le (c : VMCConfiguration) (alpha beta : ℝ)
    (s : ℕ → ℝ) (st : MCState) (i : ℕ) :
    (mcParticleStep c alpha beta s st i).acc ≤ st.acc + 1 := by
  unfold mcParticleStep
  by_cases hu : s (st.k + c.dims) ≤
      Psi c alpha (proposeCol c s st i)
          (updateDist c.n_particles c.dims i (proposeCol c s st i) st.D) *
        Psi c alpha (proposeCol c s st i)
          (updateDist c.n_particles c.dims i (proposeCol c s st i) st.D) /
        (st.psiOld * st.psiOld)
  · rw [if_pos hu]
  · rw [if_neg hu]
    exact Nat.le_succ _

theorem foldl_mcParticleStep_acc_le (c : VMCConfiguration) (alpha beta : ℝ)
    (s : ℕ → ℝ) :
    ∀ (l : List ℕ) (st : MCState),
      ((l.foldl (mcParticleStep c alpha beta s) st).acc ≤ st.acc + l.length) := by
  intro l
  induction l with
  | nil => intro st; simp
  | cons x rest ih =>
    intro st
    rw [List.foldl_cons]
    have h1 := ih (mcParticleStep c alpha beta s st x)
    have h2 := mcParticleStep_acc_le c alpha beta s st x
    simp only [List.length_cons]
    omega

theorem mcCycle_acc_le (c : VMCConfiguration) (alpha beta : ℝ) (s : ℕ → ℝ)
    (st : MCState) :
    (mcCycle c alpha beta s st).acc ≤ st.acc + c.n_particles := by
  unfold mcCycle
  have := foldl_mcParticleStep_acc_le c alpha beta s
    (List.range c.n_particles) { st with psiOld := Psi c alpha st.R_old st.D }
  simpa using this

theorem foldl_mcCycle_acc_le (c : VMCConfiguration) (alpha beta : ℝ)
    (s : ℕ → ℝ) :
    ∀ (l : List ℕ) (st : MCState),
      ((l.foldl (fun st2 _ => mcCycle c alpha beta s st2) st).acc ≤
        st.acc + l.length * c.n_particles) := by
  intro l
  induction l with
  | nil => intro st; simp
  | cons x rest ih =>
    intro st
    rw [List.foldl_cons]
    have h1 := ih (mcCycle c alpha beta s st)
    have h2 := mcCycle_acc_le c alpha beta s st
    simp only [List.length_cons]
    have : (rest.length + 1) * c.n_particles =
        rest.length * c.n_particles + c.n_particles := by ring
    omega

theorem runMCState_acc_le (c : VMCConfiguration) (alpha beta : ℝ)
    (s : ℕ → ℝ) (k0 n_cycles : ℕ) :
    (runMCState c alpha beta s k0 n_cycles).acc ≤
      n_cycles * c.n_particles := by
  unfold runMCState
  have := foldl_mcCycle_acc_le c alpha beta s (List.range n_cycles)
    (mcInitState c s k0)
  have hinit : (mcInitState c s k0).acc = 0 := rfl
  simp only [List.length_range] at this
  omega

/-- C8: the Result record of a Metropolis run divides the accumulated energy
and squared-energy sums by (cycles * particle count), computes the variance
as mean squared energy minus squared mean energy, and reports the acceptance
rate accepted/attempted, which always lies in [0, 1] because exactly one move
is attempted and at most one accepted per particle per cycle. -/
theorem run_mc_results_spec (c : VMCConfiguration) (alpha beta : ℝ)
    (s : ℕ → ℝ) (k0 n_cycles : ℕ) (hc : 0 < n_cycles)
    (hn : 0 < c.n_particles) :
    (run_MC c alpha beta s k0 n_cycles).E =
        (runMCState c alpha beta s k0 n_cycles).Esum /
          ((n_cycles * c.n_particles : ℕ) : ℝ) ∧
    (run_MC c alpha beta s k0 n_cycles).E2 =
        (runMCState c alpha beta s k0 n_cycles).E2sum /
          ((n_cycles * c.n_particles : ℕ) : ℝ) ∧
    (run_MC c alpha beta s k0 n_cycles).variance =
        (run_MC c alpha beta s k0 n_cycles).E2 -
          (run_MC c alpha beta s k0 n_cycles).E ^ 2 ∧
    (run_MC c alpha beta s k0 n_cycles).acceptance_rate =
        ((runMCState c alpha beta s k0 n_cycles).acc : ℝ) /
          ((n_cycles * c.n_particles : ℕ) : ℝ) ∧
    0 ≤ (run_MC c alpha beta s k0 n_cycles).acceptance_rate ∧
    (run_MC c alpha beta s k0 n_cycles).acceptance_rate ≤ 1 := by
  have hpos : (0 : ℝ) < ((n_cycles * c.n_particles : ℕ) : ℝ) := by
    have : 0 < n_cycles * c.n_particles := Nat.mul_pos hc hn
    exact_mod_cast this
  refine ⟨rfl, rfl, by
    have h1 : (run_MC c alpha beta s k0 n_cycles).variance =
        (run_MC c alpha beta s k0 n_cycles).E2 -
          (run_MC c alpha beta s k0 n_cycles).E *
            (run_MC c alpha beta s k0 n_cycles).E := rfl
    rw [h1]
    ring, rfl, ?_, ?_⟩
  · exact div_nonneg (Nat.cast_nonneg _) hpos.le
  · show ((runMCState c alpha beta s k0 n_cycles).acc : ℝ) /
      ((n_cycles * c.n_particles : ℕ) : ℝ) ≤ 1
    rw [div_le_one hpos]
    exact_mod_cast runMCState_acc_le c alpha beta s k0 n_cycles

/-- Witness for C8 at a concrete single-particle, single-cycle run. -/
theorem run_mc_results_spec_witness :
    (run_MC cfgW5 (1 / 2) 1 (fun _ => 0) 0 1).E =
        (runMCState cfgW5 (1 / 2) 1 (fun _ => 0) 0 1).Esum /
          ((1 * cfgW5.n_particles : ℕ) : ℝ) ∧
    (run_MC cfgW5 (1 / 2) 1 (fun _ => 0) 0 1).E2 =
        (runMCState cfgW5 (1 / 2) 1 (fun _ => 0) 0 1).E2sum /
          ((1 * cfgW5.n_particles : ℕ) : ℝ) ∧
    (run_MC cfgW5 (1 / 2) 1 (fun _ => 0) 0 1).variance =
        (run_MC cfgW5 (1 / 2) 1 (fun _ => 0) 0 1).E2 -
          (run_MC cfgW5 (1 / 2) 1 (fun _ => 0) 0 1).E ^ 2 ∧
    (run_MC cfgW5 (1 / 2) 1 (fun _ => 0) 0 1).acceptance_rate =
        ((runMCState cfgW5 (1 / 2) 1 (fun _ => 0) 0 1).acc : ℝ) /
          ((1 * cfgW5.n_particles : ℕ) : ℝ) ∧
    0 ≤ (run_MC cfgW5 (1 / 2) 1 (fun _ => 0) 0 1).acceptance_rate ∧
    (run_MC cfgW5 (1 / 2) 1 (fun _ => 0) 0 1).acceptance_rate ≤ 1 :=
  run_mc_results_spec cfgW5 (1 / 2) 1 (fun _ => 0) 0 1 (by norm_num)
    (by norm_num [cfgW5])

theorem sweepResults_length (c : VMCConfiguration) (n_cycles : ℕ)
    (s : ℕ → ℝ) :
    ∀ (l : List (ℝ × ℝ)) (k : ℕ),
      (sweepResults c n_cycles s l k).length = l.length := by
  intro l
  induction l with
  | nil => intro k; rfl
  | cons p rest ih =>
    intro k
    obtain ⟨a, b⟩ := p
    unfold sweepResults
    simp only [List.length_cons]
    rw [ih]

theorem sweepAux_lines (c : VMCConfiguration) (n_cycles : ℕ) (s : ℕ → ℝ) :
    ∀ (l : List (ℝ × ℝ)) (k : ℕ) (best : Results) (o : OStream),
      ((sweepAux c n_cycles s l k best o).2.1).lines =
        o.lines ++ (sweepResults c n_cycles s l k).map
          (fun r => OutLine.point r.alpha r.beta r.E r.E2) := by
  intro l
  induction l with
  | nil =>
    intro k best o
    simp [sweepAux, sweepResults]
  | cons p rest ih =>
    intro k best o
    obtain ⟨a, b⟩ := p
    unfold sweepAux sweepResults
    rw [ih]
    simp [writeLine, mkResults]

theorem sweepAux_best_le (c : VMCConfiguration) (n_cycles : ℕ) (s : ℕ → ℝ) :
    ∀ (l : List (ℝ × ℝ)) (k : ℕ) (best : Results) (o : OStream),
      (sweepAux c n_cycles s l k best o).1.variance ≤ best.variance ∧
      ∀ r ∈ sweepResults c n_cycles s l k,
        (sweepAux c n_cycles s l k best o).1.variance ≤ r.variance := by
  intro l
  induction l with
  | nil =>
    intro k best o
    refine ⟨le_rfl, fun r hr => ?_⟩
    simp [sweepResults] at hr
  | cons p rest ih =>
    intro k best o
    obtain ⟨a, b⟩ := p
    unfold sweepAux sweepResults
    set st := runMCState c a b s k n_cycles with hst
    set res := mkResults c a b st n_cycles with hres
    set best2 := if res.variance < best.variance then res else best with hbest2
    have hb2 : best2.variance ≤ best.variance ∧ best2.variance ≤
        res.variance := by
      rw [hbest2]
      by_cases hlt : res.variance < best.variance
      · rw [if_pos hlt]
        exact ⟨hlt.le, le_rfl⟩
      · rw [if_neg hlt]
        exact ⟨le_rfl, not_lt.mp hlt⟩
    have hrec := ih st.k best2
      (writeLine o (OutLine.point a b res.E res.E2))
    refine ⟨le_trans hrec.1 hb2.1, fun r hr => ?_⟩
    rcases List.mem_cons.mp hr with rfl | hin
    · exact le_trans hrec.1 hb2.2
    · exact hrec.2 r hin

theorem linspace_length (lo hi : ℝ) (n : ℕ) : (linspace lo hi n).length = n := by
  unfold linspace
  by_cases h1 : n = 1
  · rw [if_pos h1, h1]
    rfl
  · rw [if_neg h1]
    rw [List.length_map, List.length_range]

theorem gridPoints_length (alpha_min alpha_max : ℝ) (alpha_n : ℕ)
    (beta_min beta_max : ℝ) (beta_n : ℕ) :
    (gridPoints alpha_min alpha_max alpha_n beta_min beta_max beta_n).length =
      alpha_n * beta_n := by
  unfold gridPoints
  rw [List.length_flatMap]
  have hmap : (linspace alpha_min alpha_max alpha_n).map
      (List.length ∘ fun a => (linspace beta_min beta_max beta_n).map
        fun b => (a, b)) =
      (linspace alpha_min alpha_max alpha_n).map fun _ => beta_n := by
    refine List.map_congr_left fun a _ => ?_
    simp [linspace_length]
  rw [hmap, List.map_const', List.sum_replicate, smul_eq_mul,
    linspace_length]

/-- C9: the sweep writes the header line followed by exactly one line per
(alpha, beta) grid point (alpha_n * beta_n + 1 lines in total), flushes the
stream on completion, and the returned best record has variance at most the
variance of every grid point it evaluated. -/
theorem vmc_sweep_spec (c : VMCConfiguration) (n_cycles : ℕ) (s : ℕ → ℝ)
    (k0 : ℕ) (init : Results) (alpha_min alpha_max : ℝ) (alpha_n : ℕ)
    (beta_min beta_max : ℝ) (beta_n : ℕ) (o0 : OStream)
    (ho : o0.lines = []) :
    (vmc c n_cycles s k0 init alpha_min alpha_max alpha_n beta_min beta_max
        beta_n o0).2.1.lines =
      OutLine.header ::
        (sweepResults c n_cycles s
            (gridPoints alpha_min alpha_max alpha_n beta_min beta_max beta_n)
            k0).map (fun r => OutLine.point r.alpha r.beta r.E r.E2) ∧
    (vmc c n_cycles s k0 init alpha_min alpha_max alpha_n beta_min beta_max
        beta_n o0).2.1.lines.length = alpha_n * beta_n + 1 ∧
    (vmc c n_cycles s k0 init alpha_min alpha_max alpha_n beta_min beta_max
        beta_n o0).2.1.flushed = true ∧
    ∀ r ∈ sweepResults c n_cycles s
        (gridPoints alpha_min alpha_max alpha_n beta_min beta_max beta_n) k0,
      (vmc c n_cycles s k0 init alpha_min alpha_max alpha_n beta_min beta_max
        beta_n o0).1.variance ≤ r.variance := by
  have hlines := sweepAux_lines c n_cycles s
    (gridPoints alpha_min alpha_max alpha_n beta_min beta_max beta_n) k0
    { init with variance := dblMax } (writeLine o0 OutLine.header)
  have hbest := sweepAux_best_le c n_cycles s
    (gridPoints alpha_min alpha_max alpha_n beta_min beta_max beta_n) k0
    { init with variance := dblMax } (writeLine o0 OutLine.header)
  have hw : (writeLine o0 OutLine.header).lines = [OutLine.header] := by
    simp [writeLine, ho]
  have hmain : (vmc c n_cycles s k0 init alpha_min alpha_max alpha_n beta_min
      beta_max beta_n o0).2.1.lines =
      OutLine.header ::
        (sweepResults c n_cycles s
            (gridPoints alpha_min alpha_max alpha_n beta_min beta_max beta_n)
            k0).map (fun r => OutLine.point r.alpha r.beta r.E r.E2) := by
    show (flushStream _).lines = _
    unfold flushStream
    rw [hlines, hw]
    rfl
  refine ⟨hmain, ?_, rfl, fun r hr => hbest.2 r hr⟩
  rw [hmain]
  simp [sweepResults_length, gridPoints_length]

/-- Witness for C9 on a concrete empty stream and a 1 x 1 grid. -/
theorem vmc_sweep_spec_witness :
    (vmc cfgW5 1 (fun _ => 0) 0
        { E := 0, E2 := 0, variance := 0, alpha := 0, beta := 0,
          acceptance_rate := 0 } 0 1 1 0 1 1
        { lines := [], flushed := false }).2.1.lines =
      OutLine.header ::
        (sweepResults cfgW5 1 (fun _ => 0)
            (gridPoints 0 1 1 0 1 1) 0).map
          (fun r => OutLine.point r.alpha r.beta r.E r.E2) ∧
    (vmc cfgW5 1 (fun _ => 0) 0
        { E := 0, E2 := 0, variance := 0, alpha := 0, beta := 0,
          acceptance_rate := 0 } 0 1 1 0 1 1
        { lines := [], flushed := false }).2.1.lines.length = 1 * 1 + 1 ∧
    (vmc cfgW5 1 (fun _ => 0) 0
        { E := 0, E2 := 0, variance := 0, alpha := 0, beta := 0,
          acceptance_rate := 0 } 0 1 1 0 1 1
        { lines := [], flushed := false }).2.1.flushed = true ∧
    ∀ r ∈ sweepResults cfgW5 1 (fun _ => 0) (gridPoints 0 1 1 0 1 1) 0,
      (vmc cfgW5 1 (fun _ => 0) 0
        { E := 0, E2 := 0, variance := 0, alpha := 0, beta := 0,
          acceptance_rate := 0 } 0 1 1 0 1 1
        { lines := [], flushed := false }).1.variance ≤ r.variance :=
  vmc_sweep_spec cfgW5 1 (fun _ => 0) 0
    { E := 0, E2 := 0, variance := 0, alpha := 0, beta := 0,
      acceptance_rate := 0 } 0 1 1 0 1 1
    { lines := [], flushed := false } rfl

theorem exp_taylor3 (w : ℝ) (hw : |w| ≤ 1) :
    |Real.exp w - (1 + w + w^2/2 + w^3/6)| ≤ |w|^4 := by
  have h := Real.exp_bound hw (show 0 < 4 by norm_num)
  have hsum : ∑ m ∈ Finset.range 4, w ^ m / m.factorial =
      1 + w + w^2/2 + w^3/6 := by
    rw [Finset.sum_range_succ, Finset.sum_range_succ, Finset.sum_range_succ,
      Finset.sum_range_succ, Finset.sum_range_zero]
    norm_num [Nat.factorial]
  rw [hsum] at h
  have hb : |w|^4 * (((4:ℕ).succ : ℝ) / ((4:ℕ).factorial * 4)) ≤ |w|^4 := by
    have h4 : (0:ℝ) ≤ |w|^4 := by positivity
    have : (((4:ℕ).succ : ℝ) / ((4:ℕ).factorial * 4)) ≤ 1 := by
      norm_num [Nat.factorial]
    nlinarith
  exact le_trans h hb

/-- The per-coordinate truncation-error coefficient used in the C2 bound. -/
noncomputable def CxDef (alpha x : ℝ) : ℝ :=
  alpha^2 + |alpha|^3/3 + 4*|alpha|^3*x^2 + 2*|alpha|^4*(2*|x| + 1)^4

set_option maxHeartbeats 1000000 in
theorem pair_bound (alpha x h : ℝ) (h0 : 0 < h) (h1 : h ≤ 1)
    (hs : |alpha| * (2*|x| + 1) * h ≤ 1) :
    |(Real.exp (-alpha*(2*x*h + h^2)) + Real.exp (-alpha*(h^2 - 2*x*h)) - 2)
        / h^2 - (4*alpha^2*x^2 - 2*alpha)| ≤ CxDef alpha x * h^2 := by
  have hne : h ≠ 0 := ne_of_gt h0
  have h2h : h^2 ≤ h := by nlinarith
  have h21 : h^2 ≤ 1 := by nlinarith
  have e1 : |2*x*h| = 2 * |x| * h := by
    rw [abs_mul, abs_mul, abs_two, abs_of_pos h0]
  have e2 : |h^2| = h^2 := abs_of_nonneg (by positivity)
  have hb1 : |(-alpha*(2*x*h + h^2))| ≤ |alpha| * ((2*|x| + 1) * h) := by
    have habs : |2*x*h + h^2| ≤ (2*|x| + 1) * h := by
      calc |2*x*h + h^2| ≤ |2*x*h| + |h^2| := abs_add _ _
        _ = 2 * |x| * h + h^2 := by rw [e1, e2]
        _ ≤ (2*|x| + 1) * h := by nlinarith
    calc |(-alpha*(2*x*h + h^2))| = |alpha| * |2*x*h + h^2| := by
          rw [neg_mul, abs_neg, abs_mul]
      _ ≤ |alpha| * ((2*|x| + 1) * h) :=
          mul_le_mul_of_nonneg_left habs (abs_nonneg _)
  have hb2 : |(-alpha*(h^2 - 2*x*h))| ≤ |alpha| * ((2*|x| + 1) * h) := by
    have habs : |h^2 - 2*x*h| ≤ (2*|x| + 1) * h := by
      calc |h^2 - 2*x*h| ≤ |h^2| + |2*x*h| := abs_sub _ _
        _ = h^2 + 2 * |x| * h := by rw [e1, e2]
        _ ≤ (2*|x| + 1) * h := by nlinarith
    calc |(-alpha*(h^2 - 2*x*h))| = |alpha| * |h^2 - 2*x*h| := by
          rw [neg_mul, abs_neg, abs_mul]
      _ ≤ |alpha| * ((2*|x| + 1) * h) :=
          mul_le_mul_of_nonneg_left habs (abs_nonneg _)
  have hs2 : |alpha| * ((2*|x| + 1) * h) ≤ 1 := by rw [← mul_assoc]; exact hs
  have hu1 : |(-alpha*(2*x*h + h^2))| ≤ 1 := le_trans hb1 hs2
  have hv1 : |(-alpha*(h^2 - 2*x*h))| ≤ 1 := le_trans hb2 hs2
  have Ru := exp_taylor3 _ hu1
  have Rv := exp_taylor3 _ hv1
  set u := -alpha*(2*x*h + h^2) with hu_def
  set v := -alpha*(h^2 - 2*x*h) with hv_def
  have hpoly : ((1 + u + u^2/2 + u^3/6) + (1 + v + v^2/2 + v^3/6) - 2) / h^2
      - (4*alpha^2*x^2 - 2*alpha) =
      alpha^2*h^2 - alpha^3*h^4/3 - 4*alpha^3*x^2*h^2 := by
    rw [hu_def, hv_def]
    field_simp
    ring
  have hdecomp : (Real.exp u + Real.exp v - 2)/h^2 - (4*alpha^2*x^2 - 2*alpha)
      = (Real.exp u - (1 + u + u^2/2 + u^3/6))/h^2
        + (Real.exp v - (1 + v + v^2/2 + v^3/6))/h^2
        + (((1 + u + u^2/2 + u^3/6) + (1 + v + v^2/2 + v^3/6) - 2) / h^2
            - (4*alpha^2*x^2 - 2*alpha)) := by
    field_simp
    ring
  rw [hdecomp, hpoly]
  have hq : (0:ℝ) < h^2 := by positivity
  have hRu2 : |(Real.exp u - (1 + u + u^2/2 + u^3/6))/h^2| ≤
      |alpha|^4*(2*|x| + 1)^4*h^2 := by
    rw [abs_div, e2, div_le_iff₀ hq]
    have h4 : |u|^4 ≤ (|alpha| * ((2*|x| + 1) * h))^4 :=
      pow_le_pow_left₀ (abs_nonneg u) hb1 4
    have heq : (|alpha| * ((2*|x| + 1) * h))^4 =
        |alpha|^4*(2*|x| + 1)^4*h^2*h^2 := by ring
    exact le_trans (le_trans Ru h4) (le_of_eq heq)
  have hRv2 : |(Real.exp v - (1 + v + v^2/2 + v^3/6))/h^2| ≤
      |alpha|^4*(2*|x| + 1)^4*h^2 := by
    rw [abs_div, e2, div_le_iff₀ hq]
    have h4 : |v|^4 ≤ (|alpha| * ((2*|x| + 1) * h))^4 :=
      pow_le_pow_left₀ (abs_nonneg v) hb2 4
    have heq : (|alpha| * ((2*|x| + 1) * h))^4 =
        |alpha|^4*(2*|x| + 1)^4*h^2*h^2 := by ring
    exact le_trans (le_trans Rv h4) (le_of_eq heq)
  have hp : |alpha^2*h^2 - alpha^3*h^4/3 - 4*alpha^3*x^2*h^2| ≤
      (alpha^2 + |alpha|^3/3 + 4*|alpha|^3*x^2) * h^2 := by
    have p1 : |alpha^2*h^2| = alpha^2*h^2 := abs_of_nonneg (by positivity)
    have p2 : |alpha^3*h^4/3| ≤ |alpha|^3*h^2/3 := by
      have hx3 : |alpha^3*h^4/3| = |alpha|^3*h^4/3 := by
        rw [abs_div, abs_mul, abs_pow, abs_pow, abs_of_pos h0]
        norm_num
      rw [hx3]
      have hh4 : h^4 ≤ h^2 := by nlinarith
      gcongr
    have p3 : |4*alpha^3*x^2*h^2| ≤ 4*|alpha|^3*x^2*h^2 := by
      have hx3 : |4*alpha^3*x^2*h^2| = 4*|alpha|^3*x^2*h^2 := by
        rw [abs_mul, abs_mul, abs_mul, abs_pow, abs_pow, abs_pow,
          abs_of_pos h0]
        norm_num
      rw [hx3]
    have t1 : |alpha^2*h^2 - alpha^3*h^4/3 - 4*alpha^3*x^2*h^2| ≤
        |alpha^2*h^2 - alpha^3*h^4/3| + |4*alpha^3*x^2*h^2| := abs_sub _ _
    have t2 : |alpha^2*h^2 - alpha^3*h^4/3| ≤
        |alpha^2*h^2| + |alpha^3*h^4/3| := abs_sub _ _
    have t3 : (alpha^2 + |alpha|^3/3 + 4*|alpha|^3*x^2) * h^2 =
        alpha^2*h^2 + |alpha|^3*h^2/3 + 4*|alpha|^3*x^2*h^2 := by ring
    linarith
  have habs3 : |(Real.exp u - (1 + u + u^2/2 + u^3/6))/h^2
      + (Real.exp v - (1 + v + v^2/2 + v^3/6))/h^2
      + (alpha^2*h^2 - alpha^3*h^4/3 - 4*alpha^3*x^2*h^2)| ≤
      |(Real.exp u - (1 + u + u^2/2 + u^3/6))/h^2|
      + |(Real.exp v - (1 + v + v^2/2 + v^3/6))/h^2|
      + |alpha^2*h^2 - alpha^3*h^4/3 - 4*alpha^3*x^2*h^2| := by
    have q1 := abs_add ((Real.exp u - (1 + u + u^2/2 + u^3/6))/h^2)
      ((Real.exp v - (1 + v + v^2/2 + v^3/6))/h^2)
    have q2 := abs_add ((Real.exp u - (1 + u + u^2/2 + u^3/6))/h^2
      + (Real.exp v - (1 + v + v^2/2 + v^3/6))/h^2)
      (alpha^2*h^2 - alpha^3*h^4/3 - 4*alpha^3*x^2*h^2)
    linarith
  have hfin : |alpha|^4*(2*|x| + 1)^4*h^2 + |alpha|^4*(2*|x| + 1)^4*h^2 +
      (alpha^2 + |alpha|^3/3 + 4*|alpha|^3*x^2) * h^2 =
      CxDef alpha x * h^2 := by
    unfold CxDef
    ring
  linarith

theorem list_range_map_sum (n : ℕ) (f : ℕ → ℝ) :
    ((List.range n).map f).sum = ∑ i ∈ Finset.range n, f i := by
  induction n with
  | zero => simp
  | succ m ih =>
    rw [List.range_succ, List.map_append, List.sum_append,
      Finset.sum_range_succ, ih]
    simp

theorem mem_coordList {np dims : ℕ} {p : ℕ × ℕ} :
    p ∈ coordList np dims ↔ p.1 < np ∧ p.2 < dims := by
  obtain ⟨i, d⟩ := p
  simp only [coordList, List.mem_flatMap, List.mem_map, List.mem_range,
    Prod.mk.injEq]
  constructor
  · rintro ⟨x, hx, y, hy, rfl, rfl⟩
    exact ⟨hx, hy⟩
  · rintro ⟨hi, hd⟩
    exact ⟨i, hi, d, hd, rfl, rfl⟩

theorem coordList_map_sum (np dims : ℕ) (f : ℕ × ℕ → ℝ) :
    ((coordList np dims).map f).sum =
      ∑ i ∈ Finset.range np, ∑ d ∈ Finset.range dims, f (i, d) := by
  unfold coordList
  have hflat : ∀ (l : List ℕ),
      ((l.flatMap fun i => (List.range dims).map fun d => (i, d)).map f).sum =
      (l.map fun i =>
        (((List.range dims).map fun d => (i, d)).map f).sum).sum := by
    intro l
    induction l with
    | nil => simp
    | cons x rest ih => simp [List.flatMap_cons, ih]
  rw [hflat, list_range_map_sum]
  refine Finset.sum_congr rfl fun i _ => ?_
  rw [List.map_map]
  exact list_range_map_sum dims fun d => f (i, d)

theorem sumSq_perturb (np dims : ℕ) (R : Pos) (i d : ℕ) (hi : i < np)
    (hd : d < dims) (val : ℝ) :
    sumSq np dims (perturb R i d val) =
      sumSq np dims R - R i d ^ 2 + val ^ 2 := by
  unfold sumSq
  have hmem : i ∈ Finset.range np := Finset.mem_range.mpr hi
  have hdm : d ∈ Finset.range dims := Finset.mem_range.mpr hd
  rw [← Finset.add_sum_erase _ _ hmem,
    ← Finset.add_sum_erase _ (fun i2 => ∑ d2 ∈ Finset.range dims, R i2 d2 ^ 2)
      hmem]
  have houter : ∑ i2 ∈ (Finset.range np).erase i,
      ∑ d2 ∈ Finset.range dims, perturb R i d val i2 d2 ^ 2 =
      ∑ i2 ∈ (Finset.range np).erase i,
        ∑ d2 ∈ Finset.range dims, R i2 d2 ^ 2 := by
    refine Finset.sum_congr rfl fun i2 hi2 => ?_
    refine Finset.sum_congr rfl fun d2 _ => ?_
    have hne : i2 ≠ i := (Finset.mem_erase.mp hi2).1
    unfold perturb
    rw [if_neg (by rintro ⟨rfl, _⟩; exact hne rfl)]
  have hinner : ∑ d2 ∈ Finset.range dims, perturb R i d val i d2 ^ 2 =
      (∑ d2 ∈ Finset.range dims, R i d2 ^ 2) - R i d ^ 2 + val ^ 2 := by
    rw [← Finset.add_sum_erase _ _ hdm,
      ← Finset.add_sum_erase _ (fun d2 => R i d2 ^ 2) hdm]
    have h1 : perturb R i d val i d ^ 2 = val ^ 2 := by
      unfold perturb
      rw [if_pos ⟨rfl, rfl⟩]
    have h2 : ∑ d2 ∈ (Finset.range dims).erase d,
        perturb R i d val i d2 ^ 2 =
        ∑ d2 ∈ (Finset.range dims).erase d, R i d2 ^ 2 := by
      refine Finset.sum_congr rfl fun d2 hd2 => ?_
      have hne : d2 ≠ d := (Finset.mem_erase.mp hd2).1
      unfold perturb
      rw [if_neg (by rintro ⟨_, rfl⟩; exact hne rfl)]
    rw [h1, h2]
    ring
  rw [houter, hinner]
  ring

theorem Psi_g_perturb (c : VMCConfiguration) (alpha : ℝ) (R : Pos)
    (i d : ℕ) (hi : i < c.n_particles) (hd : d < c.dims) (val : ℝ) :
    Psi_g c alpha (perturb R i d val) =
      Psi_g c alpha R * Real.exp (-alpha * (val ^ 2 - R i d ^ 2)) := by
  unfold Psi_g
  rw [sumSq_perturb c.n_particles c.dims R i d hi hd val, ← Real.exp_add]
  congr 1
  ring

theorem Psi_off (c : VMCConfiguration) (alpha : ℝ) (R D : Pos)
    (hoff : c.interaction = InteractionType.OFF) :
    Psi c alpha R D = Psi_g c alpha R := by
  unfold Psi Psi_f
  rw [if_pos hoff, mul_one]

theorem ekin_foldl_off (c : VMCConfiguration) (alpha : ℝ) (R : Pos)
    (hoff : c.interaction = InteractionType.OFF) :
    ∀ (l : List (ℕ × ℕ)) (E0 : ℝ) (D : Pos),
      l.foldl (ekinStep c alpha R) (E0, D) =
        (E0 + (l.map fun p =>
          Psi_g c alpha (perturb R p.1 p.2 (R p.1 p.2 + c.h)) +
          Psi_g c alpha (perturb R p.1 p.2 (R p.1 p.2 - c.h))).sum, D) := by
  have hnon : c.interaction ≠ InteractionType.ON := by
    rw [hoff]
    intro hc
    cases hc
  intro l
  induction l with
  | nil => intro E0 D; simp
  | cons p rest ih =>
    intro E0 D
    rw [List.foldl_cons]
    have hstep : ekinStep c alpha R (E0, D) p =
        (E0 + Psi_g c alpha (perturb R p.1 p.2 (R p.1 p.2 + c.h)) +
          Psi_g c alpha (perturb R p.1 p.2 (R p.1 p.2 - c.h)), D) := by
      unfold ekinStep
      simp only [if_neg hnon]
      rw [Psi_off c alpha (perturb R p.1 p.2 (R p.1 p.2 + c.h)) D hoff,
        Psi_off c alpha (perturb R p.1 p.2 (R p.1 p.2 - c.h)) D hoff]
    rw [hstep, ih]
    simp only [List.map_cons, List.sum_cons, Prod.mk.injEq]
    exact ⟨by ring, trivial⟩

theorem Psi_g_ne_zero (c : VMCConfiguration) (alpha : ℝ) (R : Pos) :
    Psi_g c alpha R ≠ 0 := by
  unfold Psi_g
  exact Real.exp_ne_zero _

set_option maxHeartbeats 1000000 in
theorem E_local_numeric_off (c : VMCConfiguration) (alpha beta : ℝ)
    (R D : Pos) (hoff : c.interaction = InteractionType.OFF)
    (hacc : c.acceleration = AnalyticAcceleration.OFF) :
    E_local c alpha beta R D = V_ext c R + (-0.5) * c.h2 *
      ∑ i ∈ Finset.range c.n_particles, ∑ d ∈ Finset.range c.dims,
        (Real.exp (-alpha * (2 * R i d * c.h + c.h ^ 2)) +
          Real.exp (-alpha * (c.h ^ 2 - 2 * R i d * c.h)) - 2) := by
  simp only [E_local, E_localS, E_kinetic, hacc, hoff, reduceIte, V_int]
  rw [ekin_foldl_off c alpha R hoff]
  simp only []
  rw [Psi_off c alpha R D hoff]
  have hmap : ((coordList c.n_particles c.dims).map fun p =>
      Psi_g c alpha (perturb R p.1 p.2 (R p.1 p.2 + c.h)) +
      Psi_g c alpha (perturb R p.1 p.2 (R p.1 p.2 - c.h))) =
      (coordList c.n_particles c.dims).map fun p =>
        Psi_g c alpha R *
          (Real.exp (-alpha * (2 * R p.1 p.2 * c.h + c.h ^ 2)) +
            Real.exp (-alpha * (c.h ^ 2 - 2 * R p.1 p.2 * c.h))) := by
    refine List.map_congr_left fun p hp => ?_
    obtain ⟨hi, hd⟩ := mem_coordList.mp hp
    rw [Psi_g_perturb c alpha R p.1 p.2 hi hd,
      Psi_g_perturb c alpha R p.1 p.2 hi hd]
    have q1 : -alpha * ((R p.1 p.2 + c.h) ^ 2 - R p.1 p.2 ^ 2) =
        -alpha * (2 * R p.1 p.2 * c.h + c.h ^ 2) := by ring
    have q2 : -alpha * ((R p.1 p.2 - c.h) ^ 2 - R p.1 p.2 ^ 2) =
        -alpha * (c.h ^ 2 - 2 * R p.1 p.2 * c.h) := by ring
    rw [q1, q2, ← mul_add]
  rw [hmap, List.sum_map_mul_left, coordList_map_sum]
  have hsplit : ∑ i ∈ Finset.range c.n_particles,
      ∑ d ∈ Finset.range c.dims,
        (Real.exp (-alpha * (2 * R i d * c.h + c.h ^ 2)) +
          Real.exp (-alpha * (c.h ^ 2 - 2 * R i d * c.h)) - 2) =
      (∑ i ∈ Finset.range c.n_particles, ∑ d ∈ Finset.range c.dims,
        (Real.exp (-alpha * (2 * R i d * c.h + c.h ^ 2)) +
          Real.exp (-alpha * (c.h ^ 2 - 2 * R i d * c.h)))) -
      (c.n_particles : ℝ) * ((c.dims : ℝ) * 2) := by
    simp only [Finset.sum_sub_distrib, Finset.sum_const, Finset.card_range,
      nsmul_eq_mul]
  rw [hsplit]
  have hne := Psi_g_ne_zero c alpha R
  have hcast : ((c.n_particles * c.dims : ℕ) : ℝ) =
      (c.n_particles : ℝ) * (c.dims : ℝ) := by push_cast; ring
  rw [hcast]
  field_simp
  ring

theorem truncInt_neg_natCast (n : ℕ) : truncInt (-(n : ℝ)) = -(n : ℤ) := by
  unfold truncInt
  by_cases h0 : n = 0
  · subst h0
    norm_num
  · have hn : 0 < (n : ℝ) := by exact_mod_cast Nat.pos_of_ne_zero h0
    rw [if_neg (by linarith), Int.ceil_neg, Int.floor_natCast]

theorem oneBodyBetaTerm_noskew (c : VMCConfiguration) (beta : ℝ)
    (hb : c.dims = 3 → beta = 1) :
    (oneBodyBetaTerm c beta : ℝ) = -(c.dims : ℝ) := by
  unfold oneBodyBetaTerm
  by_cases h3 : c.dims = 3
  · rw [if_pos h3, hb h3, h3]
    rw [show -(2 + (1:ℝ)) = -((3:ℕ) : ℝ) by norm_num, truncInt_neg_natCast]
    push_cast
    ring
  · rw [if_neg h3, truncInt_neg_natCast]
    push_cast
    ring

theorem skew_noskew (c : VMCConfiguration) (beta : ℝ) (R : Pos) (k d : ℕ)
    (hb : c.dims = 3 → beta = 1) : skew c beta R k d = R k d := by
  unfold skew
  by_cases hc : c.dims = 3 ∧ d = 2
  · rw [if_pos hc, hb hc.1, one_mul]
  · rw [if_neg hc]

theorem E_local_analytic_off (c : VMCConfiguration) (alpha beta : ℝ)
    (R D : Pos) (hoff : c.interaction = InteractionType.OFF)
    (hacc : c.acceleration = AnalyticAcceleration.ON)
    (hb : c.dims = 3 → beta = 1) :
    E_local c alpha beta R D = V_ext c R + (-0.5) *
      ∑ i ∈ Finset.range c.n_particles, ∑ d ∈ Finset.range c.dims,
        (4 * alpha ^ 2 * R i d ^ 2 - 2 * alpha) := by
  have hne2 : AnalyticAcceleration.ON ≠ AnalyticAcceleration.OFF := by
    intro hx
    cases hx
  simp only [E_local, E_localS, hacc, if_neg hne2, hoff, reduceIte, V_int]
  have hEL : ELacc c alpha beta R D =
      ∑ i ∈ Finset.range c.n_particles, ∑ d ∈ Finset.range c.dims,
        (4 * alpha ^ 2 * R i d ^ 2 - 2 * alpha) := by
    unfold ELacc
    refine Finset.sum_congr rfl fun k _ => ?_
    rw [if_pos hoff, add_zero, oneBodyBetaTerm_noskew c beta hb]
    have hskew : ∑ d ∈ Finset.range c.dims, skew c beta R k d ^ 2 =
        ∑ d ∈ Finset.range c.dims, R k d ^ 2 :=
      Finset.sum_congr rfl fun d _ => by rw [skew_noskew c beta R k d hb]
    rw [hskew, Finset.sum_sub_distrib, Finset.sum_const, Finset.card_range,
      nsmul_eq_mul,
      show ∑ d ∈ Finset.range c.dims, 4 * alpha ^ 2 * R k d ^ 2 =
        4 * alpha ^ 2 * ∑ d ∈ Finset.range c.dims, R k d ^ 2 from by
          rw [Finset.mul_sum]]
    ring
  rw [hEL]
  ring

/-- C2 (amended): with interaction OFF, whenever the dimensionality is not 3
or beta = 1 (so that the analytic one-body formula describes the same
isotropic Gaussian the numeric mode differentiates), the numeric-mode local
energy with step h and cached inverse square 1/h^2 agrees with the
analytic-mode local energy within a constant times h^2, for all sufficiently
small positive h. -/
theorem numeric_analytic_agree_within_h_sq (c : VMCConfiguration)
    (alpha beta : ℝ) (R D : Pos)
    (hoff : c.interaction = InteractionType.OFF)
    (hb : c.dims = 3 → beta = 1) :
    ∃ C h0 : ℝ, 0 < h0 ∧ ∀ h : ℝ, 0 < h → h ≤ h0 →
      |E_local { c with
          acceleration := AnalyticAcceleration.OFF
          h := h
          h2 := 1/h^2 } alpha beta R D -
        E_local { c with acceleration := AnalyticAcceleration.ON }
          alpha beta R D| ≤ C * h^2 := by
  set M := ∑ i ∈ Finset.range c.n_particles, ∑ d ∈ Finset.range c.dims,
    |R i d| with hM
  have hMnn : 0 ≤ M :=
    Finset.sum_nonneg fun i _ => Finset.sum_nonneg fun d _ => abs_nonneg _
  have hMx : ∀ i d, i < c.n_particles → d < c.dims → |R i d| ≤ M := by
    intro i d hi hd
    calc |R i d| ≤ ∑ d2 ∈ Finset.range c.dims, |R i d2| :=
          @Finset.single_le_sum ℕ ℝ _ (fun d2 => |R i d2|)
            (Finset.range c.dims) (fun d2 _ => abs_nonneg _) d
            (Finset.mem_range.mpr hd)
      _ ≤ M := by
          rw [hM]
          exact @Finset.single_le_sum ℕ ℝ _
            (fun i2 => ∑ d2 ∈ Finset.range c.dims, |R i2 d2|)
            (Finset.range c.n_particles)
            (fun i2 _ => Finset.sum_nonneg fun d2 _ => abs_nonneg _) i
            (Finset.mem_range.mpr hi)
  have hKpos : 0 < |alpha| * (2*M + 1) + 1 := by
    nlinarith [abs_nonneg alpha]
  refine ⟨0.5 * ∑ i ∈ Finset.range c.n_particles,
      ∑ d ∈ Finset.range c.dims, CxDef alpha (R i d),
    min 1 (1/(|alpha| * (2*M + 1) + 1)),
    lt_min one_pos (div_pos one_pos hKpos), ?_⟩
  intro h hpos hle
  have hle1 : h ≤ 1 := le_trans hle (min_le_left _ _)
  have hleK : h ≤ 1/(|alpha| * (2*M + 1) + 1) :=
    le_trans hle (min_le_right _ _)
  have hsmall : ∀ i d, i < c.n_particles → d < c.dims →
      |alpha| * (2 * |R i d| + 1) * h ≤ 1 := by
    intro i d hi hd
    have h1 : |alpha| * (2 * |R i d| + 1) ≤ |alpha| * (2*M + 1) := by
      have := hMx i d hi hd
      nlinarith [abs_nonneg alpha]
    have h2 : |alpha| * (2*M + 1) * h ≤
        (|alpha| * (2*M + 1)) * (1/(|alpha| * (2*M + 1) + 1)) :=
      mul_le_mul_of_nonneg_left hleK (by nlinarith [abs_nonneg alpha])
    have h3 : (|alpha| * (2*M + 1)) * (1/(|alpha| * (2*M + 1) + 1)) ≤ 1 := by
      rw [mul_one_div, div_le_one hKpos]
      linarith
    calc |alpha| * (2 * |R i d| + 1) * h ≤ |alpha| * (2*M + 1) * h :=
          mul_le_mul_of_nonneg_right h1 hpos.le
      _ ≤ 1 := le_trans h2 h3
  have hnum := E_local_numeric_off
    { c with acceleration := AnalyticAcceleration.OFF, h := h, h2 := 1/h^2 }
    alpha beta R D hoff rfl
  have hana := E_local_analytic_off
    { c with acceleration := AnalyticAcceleration.ON } alpha beta R D hoff
    rfl hb
  rw [hnum, hana]
  rw [show ({ c with
      acceleration := AnalyticAcceleration.OFF
      h := h
      h2 := 1/h^2 } : VMCConfiguration).h2 = 1/h^2 from rfl]
  rw [show ({ c with
      acceleration := AnalyticAcceleration.OFF
      h := h
      h2 := 1/h^2 } : VMCConfiguration).h = h from rfl]
  have hVx : V_ext { c with
      acceleration := AnalyticAcceleration.OFF
      h := h
      h2 := 1/h^2 } R = V_ext c R := rfl
  have hVy : V_ext { c with acceleration := AnalyticAcceleration.ON } R =
      V_ext c R := rfl
  rw [hVx, hVy]
  have hne : h ≠ 0 := ne_of_gt hpos
  have hq : (0:ℝ) < h^2 := by positivity
  have hdiff : V_ext c R + (-0.5) * (1/h^2) *
      (∑ i ∈ Finset.range c.n_particles, ∑ d ∈ Finset.range c.dims,
        (Real.exp (-alpha * (2 * R i d * h + h ^ 2)) +
          Real.exp (-alpha * (h ^ 2 - 2 * R i d * h)) - 2)) -
      (V_ext c R + (-0.5) *
        ∑ i ∈ Finset.range c.n_particles, ∑ d ∈ Finset.range c.dims,
          (4 * alpha ^ 2 * R i d ^ 2 - 2 * alpha)) =
      (-0.5) * ∑ i ∈ Finset.range c.n_particles,
        ∑ d ∈ Finset.range c.dims,
          ((Real.exp (-alpha * (2 * R i d * h + h ^ 2)) +
            Real.exp (-alpha * (h ^ 2 - 2 * R i d * h)) - 2) / h^2 -
            (4 * alpha ^ 2 * R i d ^ 2 - 2 * alpha)) := by
    have hs1 : (1/h^2) * (∑ i ∈ Finset.range c.n_particles,
        ∑ d ∈ Finset.range c.dims,
          (Real.exp (-alpha * (2 * R i d * h + h ^ 2)) +
            Real.exp (-alpha * (h ^ 2 - 2 * R i d * h)) - 2)) =
        ∑ i ∈ Finset.range c.n_particles, ∑ d ∈ Finset.range c.dims,
          (Real.exp (-alpha * (2 * R i d * h + h ^ 2)) +
            Real.exp (-alpha * (h ^ 2 - 2 * R i d * h)) - 2) / h^2 := by
      rw [Finset.mul_sum]
      refine Finset.sum_congr rfl fun i _ => ?_
      rw [Finset.mul_sum]
      refine Finset.sum_congr rfl fun d _ => ?_
      rw [one_div, inv_mul_eq_div]
    have hsub : (∑ i ∈ Finset.range c.n_particles,
        ∑ d ∈ Finset.range c.dims,
          (Real.exp (-alpha * (2 * R i d * h + h ^ 2)) +
            Real.exp (-alpha * (h ^ 2 - 2 * R i d * h)) - 2) / h^2) -
        (∑ i ∈ Finset.range c.n_particles, ∑ d ∈ Finset.range c.dims,
          (4 * alpha ^ 2 * R i d ^ 2 - 2 * alpha)) =
        ∑ i ∈ Finset.range c.n_particles, ∑ d ∈ Finset.range c.dims,
          ((Real.exp (-alpha * (2 * R i d * h + h ^ 2)) +
            Real.exp (-alpha * (h ^ 2 - 2 * R i d * h)) - 2) / h^2 -
            (4 * alpha ^ 2 * R i d ^ 2 - 2 * alpha)) := by
      rw [← Finset.sum_sub_distrib]
      exact Finset.sum_congr rfl fun i _ => by rw [← Finset.sum_sub_distrib]
    calc V_ext c R + (-0.5) * (1/h^2) *
        (∑ i ∈ Finset.range c.n_particles, ∑ d ∈ Finset.range c.dims,
          (Real.exp (-alpha * (2 * R i d * h + h ^ 2)) +
            Real.exp (-alpha * (h ^ 2 - 2 * R i d * h)) - 2)) -
        (V_ext c R + (-0.5) *
          ∑ i ∈ Finset.range c.n_particles, ∑ d ∈ Finset.range c.dims,
            (4 * alpha ^ 2 * R i d ^ 2 - 2 * alpha)) =
        (-0.5) * ((1/h^2) *
          (∑ i ∈ Finset.range c.n_particles, ∑ d ∈ Finset.range c.dims,
            (Real.exp (-alpha * (2 * R i d * h + h ^ 2)) +
              Real.exp (-alpha * (h ^ 2 - 2 * R i d * h)) - 2)) -
          ∑ i ∈ Finset.range c.n_particles, ∑ d ∈ Finset.range c.dims,
            (4 * alpha ^ 2 * R i d ^ 2 - 2 * alpha)) := by ring
      _ = (-0.5) * ∑ i ∈ Finset.range c.n_particles,
            ∑ d ∈ Finset.range c.dims,
              ((Real.exp (-alpha * (2 * R i d * h + h ^ 2)) +
                Real.exp (-alpha * (h ^ 2 - 2 * R i d * h)) - 2) / h^2 -
                (4 * alpha ^ 2 * R i d ^ 2 - 2 * alpha)) := by
          rw [hs1, hsub]
  rw [hdiff]
  rw [abs_mul, show |(-0.5 : ℝ)| = 0.5 by norm_num]
  have habs : |∑ i ∈ Finset.range c.n_particles,
      ∑ d ∈ Finset.range c.dims,
        ((Real.exp (-alpha * (2 * R i d * h + h ^ 2)) +
          Real.exp (-alpha * (h ^ 2 - 2 * R i d * h)) - 2) / h^2 -
          (4 * alpha ^ 2 * R i d ^ 2 - 2 * alpha))| ≤
      ∑ i ∈ Finset.range c.n_particles, ∑ d ∈ Finset.range c.dims,
        CxDef alpha (R i d) * h^2 := by
    calc |∑ i ∈ Finset.range c.n_particles, ∑ d ∈ Finset.range c.dims,
        ((Real.exp (-alpha * (2 * R i d * h + h ^ 2)) +
          Real.exp (-alpha * (h ^ 2 - 2 * R i d * h)) - 2) / h^2 -
          (4 * alpha ^ 2 * R i d ^ 2 - 2 * alpha))| ≤
        ∑ i ∈ Finset.range c.n_particles,
          |∑ d ∈ Finset.range c.dims,
            ((Real.exp (-alpha * (2 * R i d * h + h ^ 2)) +
              Real.exp (-alpha * (h ^ 2 - 2 * R i d * h)) - 2) / h^2 -
              (4 * alpha ^ 2 * R i d ^ 2 - 2 * alpha))| :=
          Finset.abs_sum_le_sum_abs _ _
      _ ≤ ∑ i ∈ Finset.range c.n_particles, ∑ d ∈ Finset.range c.dims,
            CxDef alpha (R i d) * h^2 := by
          refine Finset.sum_le_sum fun i hi => ?_
          calc |∑ d ∈ Finset.range c.dims,
              ((Real.exp (-alpha * (2 * R i d * h + h ^ 2)) +
                Real.exp (-alpha * (h ^ 2 - 2 * R i d * h)) - 2) / h^2 -
                (4 * alpha ^ 2 * R i d ^ 2 - 2 * alpha))| ≤
              ∑ d ∈ Finset.range c.dims,
                |(Real.exp (-alpha * (2 * R i d * h + h ^ 2)) +
                  Real.exp (-alpha * (h ^ 2 - 2 * R i d * h)) - 2) / h^2 -
                  (4 * alpha ^ 2 * R i d ^ 2 - 2 * alpha)| :=
                Finset.abs_sum_le_sum_abs _ _
            _ ≤ ∑ d ∈ Finset.range c.dims, CxDef alpha (R i d) * h^2 := by
                refine Finset.sum_le_sum fun d hd => ?_
                have := pair_bound alpha (R i d) h hpos hle1
                  (hsmall i d (Finset.mem_range.mp hi)
                    (Finset.mem_range.mp hd))
                calc |(Real.exp (-alpha * (2 * R i d * h + h ^ 2)) +
                    Real.exp (-alpha * (h ^ 2 - 2 * R i d * h)) - 2) / h^2 -
                    (4 * alpha ^ 2 * R i d ^ 2 - 2 * alpha)| =
                    |(Real.exp (-alpha*(2*R i d*h + h^2)) +
                      Real.exp (-alpha*(h^2 - 2*R i d*h)) - 2) / h^2 -
                      (4*alpha^2*R i d^2 - 2*alpha)| := by ring_nf
                  _ ≤ CxDef alpha (R i d) * h^2 := this
  have hCsum : ∑ i ∈ Finset.range c.n_particles,
      ∑ d ∈ Finset.range c.dims, CxDef alpha (R i d) * h^2 =
      (∑ i ∈ Finset.range c.n_particles, ∑ d ∈ Finset.range c.dims,
        CxDef alpha (R i d)) * h^2 := by
    rw [Finset.sum_mul]
    refine Finset.sum_congr rfl fun i _ => ?_
    rw [Finset.sum_mul]
  rw [hCsum] at habs
  calc 0.5 * |∑ i ∈ Finset.range c.n_particles,
      ∑ d ∈ Finset.range c.dims,
        ((Real.exp (-alpha * (2 * R i d * h + h ^ 2)) +
          Real.exp (-alpha * (h ^ 2 - 2 * R i d * h)) - 2) / h^2 -
          (4 * alpha ^ 2 * R i d ^ 2 - 2 * alpha))| ≤
      0.5 * ((∑ i ∈ Finset.range c.n_particles,
        ∑ d ∈ Finset.range c.dims, CxDef alpha (R i d)) * h^2) :=
        mul_le_mul_of_nonneg_left habs (by norm_num)
    _ = 0.5 * (∑ i ∈ Finset.range c.n_particles,
        ∑ d ∈ Finset.range c.dims, CxDef alpha (R i d)) * h^2 := by ring

/-- Witness for C2: the two-particle one-dimensional fixture configuration
satisfies the hypotheses, so a truncation-error constant exists for it. -/
theorem numeric_analytic_agree_within_h_sq_witness :
    ∃ C h0 : ℝ, 0 < h0 ∧ ∀ h : ℝ, 0 < h → h ≤ h0 →
      |E_local { cfgC3 with
          acceleration := AnalyticAcceleration.OFF
          h := h
          h2 := 1/h^2 } (1/2) 1 (fun _ _ => 0) (fun _ _ => 0) -
        E_local { cfgC3 with acceleration := AnalyticAcceleration.ON }
          (1/2) 1 (fun _ _ => 0) (fun _ _ => 0)| ≤ C * h^2 :=
  numeric_analytic_agree_within_h_sq cfgC3 (1/2) 1 (fun _ _ => 0)
    (fun _ _ => 0) rfl (fun _ => rfl)

/-- A three-dimensional single-particle configuration used to exhibit the
numeric/analytic mismatch at beta different from 1. -/
noncomputable def cfgCex : VMCConfiguration :=
  { dims := 3, n_particles := 1, ho_type := HOType.SYMMETRIC,
    interaction := InteractionType.OFF,
    acceleration := AnalyticAcceleration.ON, omega_ho := 1, omega_z := 1,
    a := 0.0043, h := 0.001, h2 := 1000000, step_length := 1 }

/-- The counterexample position: the single particle sits at (0, 0, 2). -/
noncomputable def Rcex : Pos := fun _ d => if d = 2 then 2 else 0

/-- The numeric-mode variant of the counterexample configuration with
finite-difference step h and its cached inverse square. -/
noncomputable def cfgCexN (h : ℝ) : VMCConfiguration :=
  { dims := 3, n_particles := 1, ho_type := HOType.SYMMETRIC,
    interaction := InteractionType.OFF,
    acceleration := AnalyticAcceleration.OFF, omega_ho := 1, omega_z := 1,
    a := 0.0043, h := h, h2 := 1/h^2, step_length := 1 }

set_option maxHeartbeats 1000000 in
/-- C2 counterexample: at dims = 3, beta = 0, alpha = 1/2 and position
(0, 0, 2), the numeric-mode local energy does not approach the analytic-mode
local energy as h shrinks, so no constant C can bound their difference by
C * h^2 on any interval (0, h0]. -/
theorem numeric_analytic_disagree_for_beta :
    ¬ ∃ C h0 : ℝ, 0 < h0 ∧ ∀ h : ℝ, 0 < h → h ≤ h0 →
      |E_local { cfgCex with
          acceleration := AnalyticAcceleration.OFF
          h := h
          h2 := 1/h^2 } (1/2) 0 Rcex (fun _ _ => 0) -
        E_local { cfgCex with acceleration := AnalyticAcceleration.ON }
          (1/2) 0 Rcex (fun _ _ => 0)| ≤ C * h^2 := by
  rintro ⟨C, h0, hh0, H⟩
  have hana : E_local { cfgCex with acceleration := AnalyticAcceleration.ON }
      (1/2) 0 Rcex (fun _ _ => 0) = 3 := by
    have hcfg : ({ cfgCex with acceleration := AnalyticAcceleration.ON } :
        VMCConfiguration) = cfgCex := rfl
    rw [hcfg]
    have hacc : cfgCex.acceleration = AnalyticAcceleration.ON := rfl
    have hint : cfgCex.interaction = InteractionType.OFF := rfl
    have hho : cfgCex.ho_type = HOType.SYMMETRIC := rfl
    have hdims : cfgCex.dims = 3 := rfl
    have hnp : cfgCex.n_particles = 1 := rfl
    have hobt : oneBodyBetaTerm cfgCex 0 = -2 := by
      unfold oneBodyBetaTerm truncInt
      rw [hdims, if_pos rfl, if_neg (by norm_num)]
      rw [show (-(2 + (0:ℝ))) = ((-2 : ℤ) : ℝ) by norm_num]
      exact Int.ceil_intCast (-2)
    have hne4 : ¬(cfgCex.ho_type = HOType.ELLIPTICAL ∧ cfgCex.dims = 3) := by
      rintro ⟨hx, _⟩
      rw [hho] at hx
      cases hx
    unfold E_local E_localS
    rw [hacc, if_neg (by simp)]
    unfold ELacc V_ext V_int
    rw [hobt, hnp, Finset.sum_range_one, Finset.sum_range_one, if_neg hne4]
    norm_num [skew, hint, hho, hdims, Rcex, Finset.sum_range_succ,
      show cfgCex.omega_ho = (1:ℝ) from rfl]
  set h := min h0 (min (1/10) (1/(|C| + 1))) with hh
  have hCpos : (0:ℝ) < |C| + 1 := by positivity
  have hpos : 0 < h :=
    lt_min hh0 (lt_min (by norm_num) (by positivity))
  have hle0 : h ≤ h0 := min_le_left _ _
  have h10 : h ≤ 1/10 := le_trans (min_le_right _ _) (min_le_left _ _)
  have hCb : h ≤ 1/(|C| + 1) := le_trans (min_le_right _ _) (min_le_right _ _)
  have h1 : h ≤ 1 := by linarith
  have hH := H h hpos hle0
  have hmk : ({ cfgCex with
      acceleration := AnalyticAcceleration.OFF
      h := h
      h2 := 1/h^2 } : VMCConfiguration) = cfgCexN h := rfl
  rw [hmk, hana] at hH
  have hnum := E_local_numeric_off (cfgCexN h) (1/2) 0 Rcex (fun _ _ => 0)
    rfl rfl
  rw [hnum] at hH
  rw [show (cfgCexN h).h2 = 1/h^2 from rfl, show (cfgCexN h).h = h from rfl,
    show (cfgCexN h).n_particles = 1 from rfl,
    show (cfgCexN h).dims = 3 from rfl] at hH
  have hVe : V_ext (cfgCexN h) Rcex = 2 := by
    have hne4 : ¬((cfgCexN h).ho_type = HOType.ELLIPTICAL ∧
        (cfgCexN h).dims = 3) := by
      rintro ⟨hx, _⟩
      rw [show (cfgCexN h).ho_type = HOType.SYMMETRIC from rfl] at hx
      cases hx
    unfold V_ext
    rw [show (cfgCexN h).n_particles = 1 from rfl, Finset.sum_range_one,
      if_neg hne4, show (cfgCexN h).dims = 3 from rfl,
      show (cfgCexN h).omega_ho = (1:ℝ) from rfl]
    norm_num [Rcex, Finset.sum_range_succ]
  rw [hVe] at hH
  simp only [Finset.sum_range_succ, Finset.sum_range_zero, zero_add,
    Finset.sum_range_one] at hH
  rw [show Rcex 0 0 = 0 from rfl, show Rcex 0 1 = 0 from rfl,
    show Rcex 0 2 = 2 from rfl] at hH
  have habs1 : |(1/2 : ℝ)| = 1/2 := abs_of_pos (by norm_num)
  have habs2 : |(2 : ℝ)| = 2 := abs_of_pos (by norm_num)
  have hcx0 : CxDef (1/2) 0 = 5/12 := by
    unfold CxDef
    rw [habs1, abs_zero]
    norm_num
  have hcx2 : CxDef (1/2) 2 = 965/12 := by
    unfold CxDef
    rw [habs1, habs2]
    norm_num
  have hb0 := pair_bound (1/2) 0 h hpos h1
    (by rw [habs1, abs_zero]; nlinarith)
  have hb2 := pair_bound (1/2) 2 h hpos h1
    (by rw [habs1, habs2]; nlinarith)
  rw [hcx0] at hb0
  rw [hcx2] at hb2
  have hkey : (2:ℝ) + (-0.5) * (1/h^2) *
      ((Real.exp (-(1/2) * (2 * 0 * h + h ^ 2)) +
          Real.exp (-(1/2) * (h ^ 2 - 2 * 0 * h)) - 2) +
        (Real.exp (-(1/2) * (2 * 0 * h + h ^ 2)) +
          Real.exp (-(1/2) * (h ^ 2 - 2 * 0 * h)) - 2) +
        (Real.exp (-(1/2) * (2 * 2 * h + h ^ 2)) +
          Real.exp (-(1/2) * (h ^ 2 - 2 * 2 * h)) - 2)) - 3 =
      -1 - (Real.exp (-(1/2) * (2 * 0 * h + h ^ 2)) +
          Real.exp (-(1/2) * (h ^ 2 - 2 * 0 * h)) - 2) / h^2 -
        0.5 * ((Real.exp (-(1/2) * (2 * 2 * h + h ^ 2)) +
          Real.exp (-(1/2) * (h ^ 2 - 2 * 2 * h)) - 2) / h^2) := by
    ring
  rw [hkey] at hH
  obtain ⟨hHl, hHr⟩ := abs_le.mp hH
  obtain ⟨hb0l, hb0r⟩ := abs_le.mp hb0
  obtain ⟨hb2l, hb2r⟩ := abs_le.mp hb2
  have hh2a : h^2 ≤ 1/100 := by nlinarith
  have hCh2 : C * h^2 ≤ 1/10 := by
    have hsq : h * h ≤ (1/(|C| + 1)) * (1/10) :=
      mul_le_mul hCb h10 hpos.le (by positivity)
    have habsC : C * h^2 ≤ |C| * h^2 :=
      mul_le_mul_of_nonneg_right (le_abs_self C) (by positivity)
    have hc2 : |C| * h^2 ≤ |C| * ((1/(|C| + 1)) * (1/10)) := by
      rw [pow_two]
      exact mul_le_mul_of_nonneg_left hsq (abs_nonneg C)
    have hc3 : |C| * ((1/(|C| + 1)) * (1/10)) ≤ 1/10 := by
      rw [show |C| * ((1/(|C| + 1)) * (1/10)) = (|C|/(|C| + 1)) * (1/10)
        from by ring]
      have hc4 : |C|/(|C| + 1) ≤ 1 := by
        rw [div_le_one hCpos]
        linarith
      nlinarith
    linarith
  linarith

/-- Witness for C7: with interaction OFF the interaction potential vanishes. -/
theorem v_int_spec_witness :
    V_int
      { dims := 1, n_particles := 2, ho_type := HOType.SYMMETRIC,
        interaction := InteractionType.OFF,
        acceleration := AnalyticAcceleration.ON, omega_ho := 1, omega_z := 1,
        a := 1 / 2, h := 1 / 1000, h2 := 1000000, step_length := 1 }
      (fun _ _ => 0) = 0 :=
  (v_int_spec _ (fun _ _ => 0)).2.1 rfl

end VMC
